import Mathlib

/-!
Verification of the private-blockchain star registry: a shallow embedding of
`src/Blockchain.ts`, `src/Block.ts` and `src/Message.ts` in Lean 4, with the
external collaborators (the SHA-256 digest, the `JSON.stringify`/`JSON.parse`
builtins and the `hex`/`hex2ascii` byte-to-text transform) modelled as
concrete deterministic functions carrying exactly the contracts the design
document assigns to them (determinism and freedom from collisions for the
digest; reversibility for the two encodings).

JavaScript's impure methods become state-passing functions: the current time
is an explicit `now` parameter, mutation of the `Blockchain` object returns a
new value, a thrown exception becomes an `Except`/`Option` result paired with
the state as it is left behind, and the unbounded `while` walk of
`validateChain` is driven by fuel, returning `none` exactly when the
JavaScript loop would not have terminated within chain-length steps.
-/

/-! ## The payload model: JavaScript objects as JSON trees

`Block` bodies hold arbitrary structured payloads (`{owner?, star?, data?}`).
They are modelled by a mutual inductive of JSON values; object fields keep
their insertion order, exactly as `JSON.stringify` serializes them. -/

mutual

inductive Json where
  | null : Json
  | bool : Bool → Json
  | num : Int → Json
  | str : String → Json
  | arr : JsonList → Json
  | obj : JsonFields → Json
deriving DecidableEq

inductive JsonList where
  | nil : JsonList
  | cons : Json → JsonList → JsonList
deriving DecidableEq

inductive JsonFields where
  | nil : JsonFields
  | cons : String → Json → JsonFields → JsonFields
deriving DecidableEq

end

/-! ## Decimal numerals -/

/-- The decimal digit characters, produced when serializing a number. -/
def digitChar : Nat → Char
  | 0 => '0'
  | 1 => '1'
  | 2 => '2'
  | 3 => '3'
  | 4 => '4'
  | 5 => '5'
  | 6 => '6'
  | 7 => '7'
  | 8 => '8'
  | 9 => '9'
  | _ => '0'

/-- Decimal numeral of a natural number, most significant digit first,
written with explicit fuel so that it evaluates by kernel reduction; the
fuel `n + 1` always suffices because dividing by ten strictly shrinks a
number of ten or more. -/
def natCharsAux : Nat → Nat → List Char
  | 0, _ => []
  | f + 1, n => if n < 10 then [digitChar n] else natCharsAux f (n / 10) ++ [digitChar (n % 10)]

def natChars (n : Nat) : List Char := natCharsAux (n + 1) n

theorem natCharsAux_fuel : ∀ n f g, n < f → n < g → natCharsAux f n = natCharsAux g n := by
  intro n
  induction n using Nat.strong_induction_on with
  | _ n ih =>
    intro f g hf hg
    obtain ⟨f', rfl⟩ : ∃ k, f = k + 1 := ⟨f - 1, by omega⟩
    obtain ⟨g', rfl⟩ : ∃ k, g = k + 1 := ⟨g - 1, by omega⟩
    rw [natCharsAux, natCharsAux]
    by_cases h : n < 10
    · rw [if_pos h, if_pos h]
    · rw [if_neg h, if_neg h]
      have hlt : n / 10 < n := Nat.div_lt_self (by omega) (by omega)
      rw [ih (n / 10) hlt f' g' (by omega) (by omega)]

theorem natChars_eq (n : Nat) :
    natChars n = if n < 10 then [digitChar n] else natChars (n / 10) ++ [digitChar (n % 10)] := by
  show natCharsAux (n + 1) n = _
  rw [natCharsAux]
  by_cases h : n < 10
  · rw [if_pos h, if_pos h]
  · rw [if_neg h, if_neg h]
    have hlt : n / 10 < n := Nat.div_lt_self (by omega) (by omega)
    rw [natCharsAux_fuel (n / 10) n (n / 10 + 1) hlt (by omega)]
    rfl

/-- Greedy decimal-numeral consumption with an accumulator, as a parser for
the numerals `natChars` produces. Stops at the first non-digit. -/
def parseNatAcc (acc : Nat) : List Char → Nat × List Char
  | [] => (acc, [])
  | c :: cs => if c.isDigit then parseNatAcc (acc * 10 + (c.toNat - 48)) cs else (acc, c :: cs)

/-- Decimal numeral of an integer, as `JSON.stringify` prints an integral
JavaScript number. -/
def intChars (n : Int) : List Char :=
  if n < 0 then '-' :: natChars (-n).toNat else natChars n.toNat

theorem digitChar_isDigit {n : Nat} (h : n < 10) : (digitChar n).isDigit = true := by
  interval_cases n <;> decide

theorem digitChar_toNat {n : Nat} (h : n < 10) : (digitChar n).toNat = 48 + n := by
  interval_cases n <;> decide

theorem natChars_ne_nil (n : Nat) : natChars n ≠ [] := by
  rw [natChars_eq]
  split
  · simp
  · simp

theorem natChars_all_digits (n : Nat) : ∀ c ∈ natChars n, c.isDigit = true := by
  induction n using Nat.strong_induction_on with
  | _ n ih =>
    rw [natChars_eq]
    split
    · next h =>
      intro c hc
      simp at hc
      subst hc
      exact digitChar_isDigit h
    · next h =>
      intro c hc
      rw [List.mem_append] at hc
      rcases hc with hc | hc
      · exact ih (n / 10) (Nat.div_lt_self (by omega) (by omega)) c hc
      · simp at hc
        subst hc
        exact digitChar_isDigit (Nat.mod_lt _ (by omega))

theorem parseNatAcc_natChars (n : Nat) :
    ∀ acc rest, parseNatAcc acc (natChars n ++ rest) =
      parseNatAcc (acc * 10 ^ (natChars n).length + n) rest := by
  induction n using Nat.strong_induction_on with
  | _ n ih =>
    intro acc rest
    by_cases h : n < 10
    · rw [natChars_eq, if_pos h]
      simp only [List.singleton_append, List.length_cons, List.length_nil]
      rw [parseNatAcc, if_pos (digitChar_isDigit h), digitChar_toNat h]
      norm_num
    · rw [natChars_eq, if_neg h]
      rw [List.append_assoc, List.singleton_append,
        ih (n / 10) (Nat.div_lt_self (by omega) (by omega))]
      rw [parseNatAcc, if_pos (digitChar_isDigit (Nat.mod_lt _ (by omega))),
        digitChar_toNat (Nat.mod_lt _ (by omega))]
      have hlen : (natChars (n / 10) ++ [digitChar (n % 10)]).length =
          (natChars (n / 10)).length + 1 := by simp
      rw [hlen]
      congr 1
      rw [pow_succ, ← mul_assoc]
      generalize acc * 10 ^ (natChars (n / 10)).length = x
      omega

/-- A list is a valid stopping point for the numeral parser when it does not
begin with a digit. -/
def stopOK : List Char → Prop
  | [] => True
  | c :: _ => c.isDigit = false

theorem parseNatAcc_stop (acc : Nat) {rest : List Char} (h : stopOK rest) :
    parseNatAcc acc rest = (acc, rest) := by
  cases rest with
  | nil => rfl
  | cons c cs =>
    rw [parseNatAcc, if_neg]
    simp only [stopOK] at h
    simp [h]

theorem parseNatAcc_round (n : Nat) {rest : List Char} (h : stopOK rest) :
    parseNatAcc 0 (natChars n ++ rest) = (n, rest) := by
  rw [parseNatAcc_natChars, Nat.zero_mul, Nat.zero_add, parseNatAcc_stop _ h]

/-! ## String content: JSON string escaping and its parser -/

/-- The escaping `JSON.stringify` applies inside a quoted string: quote and
backslash characters are preceded by a backslash. (Control characters, which
never occur in this application's payloads, are not modelled.) -/
def escapeChars : List Char → List Char
  | [] => []
  | c :: cs =>
    if c = '"' then '\\' :: '"' :: escapeChars cs
    else if c = '\\' then '\\' :: '\\' :: escapeChars cs
    else c :: escapeChars cs

/-- Meaning of a backslash-escaped character when reading a string back. -/
def unescChar (c : Char) : Char := c

/-- Body of a quoted JSON string: consumes characters until the closing
quote, undoing the escaping, and returns the content together with the
characters after the closing quote. -/
def parseStrBody : List Char → Option (List Char × List Char)
  | [] => none
  | c :: cs =>
    if c = '"' then some ([], cs)
    else if c = '\\' then
      match cs with
      | [] => none
      | e :: cs' =>
        match parseStrBody cs' with
        | some (s, r) => some (unescChar e :: s, r)
        | none => none
    else
      match parseStrBody cs with
      | some (s, r) => some (c :: s, r)
      | none => none

theorem parseStrBody_round (s : List Char) :
    ∀ rest, parseStrBody (escapeChars s ++ '"' :: rest) = some (s, rest) := by
  induction s with
  | nil =>
    intro rest
    rw [escapeChars, List.nil_append, parseStrBody.eq_def]
    simp
  | cons c cs ih =>
    intro rest
    by_cases hq : c = '"'
    · subst hq
      rw [escapeChars, if_pos rfl]
      simp only [List.cons_append]
      rw [parseStrBody.eq_def]
      simp only [if_neg (by decide : ¬ ('\\' : Char) = '"'), if_pos rfl, ih rest]
      rfl
    · by_cases hb : c = '\\'
      · subst hb
        rw [escapeChars, if_neg (by decide), if_pos rfl]
        simp only [List.cons_append]
        rw [parseStrBody.eq_def]
        simp only [if_neg (by decide : ¬ ('\\' : Char) = '"'), if_pos rfl, ih rest]
        rfl
      · rw [escapeChars, if_neg hq, if_neg hb]
        simp only [List.cons_append]
        rw [parseStrBody.eq_def]
        simp only [if_neg hq, if_neg hb, ih rest]

/-! ## `JSON.stringify`: the canonical, order-stable serializer

The builtin serializer, modelled over `Json` trees exactly as JavaScript
prints them: no whitespace, object fields in insertion order, strings quoted
and escaped, integers in decimal. -/

mutual

def stringifyV : Json → List Char
  | Json.null => ['n', 'u', 'l', 'l']
  | Json.bool true => ['t', 'r', 'u', 'e']
  | Json.bool false => ['f', 'a', 'l', 's', 'e']
  | Json.num n => intChars n
  | Json.str s => '"' :: (escapeChars s.data ++ ['"'])
  | Json.arr xs => '[' :: stringifyArr xs
  | Json.obj fs => '{' :: stringifyObj fs

def stringifyArr : JsonList → List Char
  | JsonList.nil => [']']
  | JsonList.cons v vs => stringifyV v ++ stringifyArrTail vs

def stringifyArrTail : JsonList → List Char
  | JsonList.nil => [']']
  | JsonList.cons v vs => ',' :: (stringifyV v ++ stringifyArrTail vs)

def stringifyObj : JsonFields → List Char
  | JsonFields.nil => ['}']
  | JsonFields.cons k v fs =>
    '"' :: (escapeChars k.data ++ '"' :: ':' :: (stringifyV v ++ stringifyObjTail fs))

def stringifyObjTail : JsonFields → List Char
  | JsonFields.nil => ['}']
  | JsonFields.cons k v fs =>
    ',' :: '"' :: (escapeChars k.data ++ '"' :: ':' :: (stringifyV v ++ stringifyObjTail fs))

end

/-- `JSON.stringify`, at `String` type. -/
def jsonStringify (v : Json) : String := String.mk (stringifyV v)

/-! ## `JSON.parse`

A fuel-driven recursive-descent parser for the exact output language of
`stringifyV`, modelling the `JSON.parse` builtin on the values this
application stores. The grammar's four nonterminals (a value, the tail of an
array, one object field, the tail of an object) are handled by one step
function dispatching on a mode tag; `parseGo` ties the recursive knot with
structural recursion on the fuel, and the round-trip theorems show that fuel
proportional to the input length always suffices. -/

inductive PMode where
  | val : PMode
  | arrTail : PMode
  | field : PMode
  | objTail : PMode
deriving DecidableEq

inductive PRes where
  | v : Json → PRes
  | vs : JsonList → PRes
  | kv : String → Json → PRes
  | fs : JsonFields → PRes
deriving DecidableEq

/-- One step of the parser; `pv` is the parser for the recursive positions. -/
def parseStep (pv : PMode → List Char → Option (PRes × List Char)) :
    PMode → List Char → Option (PRes × List Char)
  | PMode.val, [] => none
  | PMode.val, c :: cs =>
    if c = 'n' then
      match cs with
      | 'u' :: 'l' :: 'l' :: r => some (PRes.v Json.null, r)
      | _ => none
    else if c = 't' then
      match cs with
      | 'r' :: 'u' :: 'e' :: r => some (PRes.v (Json.bool true), r)
      | _ => none
    else if c = 'f' then
      match cs with
      | 'a' :: 'l' :: 's' :: 'e' :: r => some (PRes.v (Json.bool false), r)
      | _ => none
    else if c = '"' then
      match parseStrBody cs with
      | some (s, r) => some (PRes.v (Json.str (String.mk s)), r)
      | none => none
    else if c = '-' then
      match cs with
      | d :: _ =>
        if d.isDigit then
          some (PRes.v (Json.num (-((parseNatAcc 0 cs).1 : Int))), (parseNatAcc 0 cs).2)
        else none
      | [] => none
    else if c = '[' then
      match cs with
      | ']' :: r => some (PRes.v (Json.arr JsonList.nil), r)
      | _ =>
        match pv PMode.val cs with
        | some (PRes.v v, r) =>
          match pv PMode.arrTail r with
          | some (PRes.vs vs, r') => some (PRes.v (Json.arr (JsonList.cons v vs)), r')
          | _ => none
        | _ => none
    else if c = '{' then
      match cs with
      | '}' :: r => some (PRes.v (Json.obj JsonFields.nil), r)
      | '"' :: ks =>
        match pv PMode.field ks with
        | some (PRes.kv k v, r) =>
          match pv PMode.objTail r with
          | some (PRes.fs fs, r') => some (PRes.v (Json.obj (JsonFields.cons k v fs)), r')
          | _ => none
        | _ => none
      | _ => none
    else if c.isDigit then
      some (PRes.v (Json.num ((parseNatAcc 0 (c :: cs)).1 : Int)), (parseNatAcc 0 (c :: cs)).2)
    else none
  | PMode.arrTail, [] => none
  | PMode.arrTail, c :: cs =>
    if c = ']' then some (PRes.vs JsonList.nil, cs)
    else if c = ',' then
      match pv PMode.val cs with
      | some (PRes.v v, r) =>
        match pv PMode.arrTail r with
        | some (PRes.vs vs, r') => some (PRes.vs (JsonList.cons v vs), r')
        | _ => none
      | _ => none
    else none
  | PMode.field, cs =>
    match parseStrBody cs with
    | some (k, r) =>
      match r with
      | ':' :: r' =>
        match pv PMode.val r' with
        | some (PRes.v v, r'') => some (PRes.kv (String.mk k) v, r'')
        | _ => none
      | _ => none
    | none => none
  | PMode.objTail, [] => none
  | PMode.objTail, c :: cs =>
    if c = '}' then some (PRes.fs JsonFields.nil, cs)
    else if c = ',' then
      match cs with
      | '"' :: ks =>
        match pv PMode.field ks with
        | some (PRes.kv k v, r) =>
          match pv PMode.objTail r with
          | some (PRes.fs fs, r') => some (PRes.fs (JsonFields.cons k v fs), r')
          | _ => none
        | _ => none
      | _ => none
    else none

def parseGo : Nat → PMode → List Char → Option (PRes × List Char)
  | 0 => fun _ _ => none
  | f + 1 => parseStep (parseGo f)

theorem parseGo_succ (f : Nat) : parseGo (f + 1) = parseStep (parseGo f) := rfl

/-- Parse one JSON value. -/
def parseV (fuel : Nat) (cs : List Char) : Option (Json × List Char) :=
  match parseGo fuel PMode.val cs with
  | some (PRes.v v, r) => some (v, r)
  | _ => none

/-! ## Structural size: a fuel bound for the parser -/

mutual

def jsize : Json → Nat
  | Json.null => 1
  | Json.bool _ => 1
  | Json.num _ => 1
  | Json.str _ => 1
  | Json.arr xs => 1 + lsize xs
  | Json.obj fs => 1 + fsize fs

def lsize : JsonList → Nat
  | JsonList.nil => 1
  | JsonList.cons v vs => 1 + jsize v + lsize vs

def fsize : JsonFields → Nat
  | JsonFields.nil => 1
  | JsonFields.cons _ v fs => 1 + jsize v + fsize fs

end

/-- `JSON.parse`, at `String` type. Fuel twice the input length is enough
for every value in the serializer's image; anything left unconsumed is a
parse error, as the builtin rejects trailing garbage. -/
def jsonParse (s : String) : Option Json :=
  match parseV (2 * s.data.length + 2) s.data with
  | some (v, []) => some v
  | _ => none

/-! ## Round trip: the parser inverts the serializer -/

theorem jsize_pos (v : Json) : 1 ≤ jsize v := by
  cases v <;> (simp only [jsize]; omega)

theorem lsize_pos (vs : JsonList) : 1 ≤ lsize vs := by
  cases vs <;> (simp only [lsize]; omega)

theorem fsize_pos (fs : JsonFields) : 1 ≤ fsize fs := by
  cases fs <;> (simp only [fsize]; omega)

theorem isDigit_ne {c d : Char} (h : c.isDigit = true) (hd : d.isDigit = false) : c ≠ d := by
  intro e
  subst e
  rw [h] at hd
  simp at hd

/-- The characters a serialized JSON value can start with. -/
def startOK (c : Char) : Prop :=
  c = 'n' ∨ c = 't' ∨ c = 'f' ∨ c = '"' ∨ c = '-' ∨ c = '[' ∨ c = '{' ∨ c.isDigit = true

theorem startOK_ne_rbrack {c : Char} (h : startOK c) : c ≠ ']' := by
  rcases h with h | h | h | h | h | h | h | h
  · subst h; decide
  · subst h; decide
  · subst h; decide
  · subst h; decide
  · subst h; decide
  · subst h; decide
  · subst h; decide
  · exact isDigit_ne h (by decide)

theorem stringifyV_head (v : Json) : ∃ c t, stringifyV v = c :: t ∧ startOK c := by
  cases v with
  | null => exact ⟨'n', _, by rw [stringifyV], by simp [startOK]⟩
  | bool b =>
    cases b with
    | false => exact ⟨'f', _, by rw [stringifyV], by simp [startOK]⟩
    | true => exact ⟨'t', _, by rw [stringifyV], by simp [startOK]⟩
  | num n =>
    by_cases hn : n < 0
    · exact ⟨'-', _, by rw [stringifyV, intChars, if_pos hn], by simp [startOK]⟩
    · obtain ⟨d, ds, hds⟩ : ∃ d ds, natChars n.toNat = d :: ds := by
        cases h : natChars n.toNat with
        | nil => exact absurd h (natChars_ne_nil _)
        | cons d ds => exact ⟨d, ds, rfl⟩
      have hd : d.isDigit = true :=
        natChars_all_digits _ d (by rw [hds]; exact List.mem_cons_self _ _)
      exact ⟨d, ds, by rw [stringifyV, intChars, if_neg hn, hds], by simp [startOK, hd]⟩
  | str s => exact ⟨'"', _, by rw [stringifyV], by simp [startOK]⟩
  | arr xs => exact ⟨'[', _, by rw [stringifyV], by simp [startOK]⟩
  | obj fs => exact ⟨'{', _, by rw [stringifyV], by simp [startOK]⟩

theorem stopOK_arrTail (vs : JsonList) (rest : List Char) :
    stopOK (stringifyArrTail vs ++ rest) := by
  cases vs with
  | nil => rw [stringifyArrTail]; exact (by decide : ((']' : Char).isDigit = false))
  | cons v vs => rw [stringifyArrTail]; exact (by decide : (((',') : Char).isDigit = false))

theorem stopOK_objTail (fs : JsonFields) (rest : List Char) :
    stopOK (stringifyObjTail fs ++ rest) := by
  cases fs with
  | nil => rw [stringifyObjTail]; exact (by decide : ((('}') : Char).isDigit = false))
  | cons k v fs => rw [stringifyObjTail]; exact (by decide : (((',') : Char).isDigit = false))

theorem String.mk_data (s : String) : String.mk s.data = s := rfl

theorem parseGo_rt_bundle (N : Nat) :
    (∀ v rest fuel, jsize v ≤ N → jsize v ≤ fuel → stopOK rest →
      parseGo fuel PMode.val (stringifyV v ++ rest) = some (PRes.v v, rest)) ∧
    (∀ vs rest fuel, lsize vs ≤ N → lsize vs ≤ fuel → stopOK rest →
      parseGo fuel PMode.arrTail (stringifyArrTail vs ++ rest) = some (PRes.vs vs, rest)) ∧
    (∀ fs rest fuel, fsize fs ≤ N → fsize fs ≤ fuel → stopOK rest →
      parseGo fuel PMode.objTail (stringifyObjTail fs ++ rest) = some (PRes.fs fs, rest)) := by
  induction N using Nat.strong_induction_on with
  | _ N ih =>
    refine ⟨?_, ?_, ?_⟩
    · intro v rest fuel hN hf hr
      obtain ⟨f, rfl⟩ : ∃ f, fuel = f + 1 := ⟨fuel - 1, by have := jsize_pos v; omega⟩
      cases v with
      | null => rw [stringifyV]; rfl
      | bool b =>
        cases b with
        | false => rw [stringifyV]; rfl
        | true => rw [stringifyV]; rfl
      | num n =>
        by_cases hn : n < 0
        · rw [stringifyV, intChars, if_pos hn]
          obtain ⟨d, ds, hds⟩ : ∃ d ds, natChars (-n).toNat = d :: ds := by
            cases h : natChars (-n).toNat with
            | nil => exact absurd h (natChars_ne_nil _)
            | cons d ds => exact ⟨d, ds, rfl⟩
          have hd : d.isDigit = true :=
            natChars_all_digits _ d (by rw [hds]; exact List.mem_cons_self _ _)
          have hacc : parseNatAcc 0 (d :: (ds ++ rest)) = ((-n).toNat, rest) := by
            rw [← List.cons_append, ← hds]
            exact parseNatAcc_round _ hr
          rw [hds]
          simp only [List.cons_append]
          rw [parseGo_succ, parseStep.eq_def]
          simp only [Char.reduceEq, reduceIte, hd, hacc]
          simp only [Option.some.injEq, Prod.mk.injEq, and_true, PRes.v.injEq, Json.num.injEq]
          rw [Int.toNat_of_nonneg (by omega)]
          omega
        · rw [stringifyV, intChars, if_neg hn]
          obtain ⟨d, ds, hds⟩ : ∃ d ds, natChars n.toNat = d :: ds := by
            cases h : natChars n.toNat with
            | nil => exact absurd h (natChars_ne_nil _)
            | cons d ds => exact ⟨d, ds, rfl⟩
          have hd : d.isDigit = true :=
            natChars_all_digits _ d (by rw [hds]; exact List.mem_cons_self _ _)
          have hacc : parseNatAcc 0 (d :: (ds ++ rest)) = (n.toNat, rest) := by
            rw [← List.cons_append, ← hds]
            exact parseNatAcc_round _ hr
          rw [hds]
          simp only [List.cons_append]
          rw [parseGo_succ, parseStep.eq_def]
          simp only [if_neg (isDigit_ne hd (by decide : ('n' : Char).isDigit = false)),
            if_neg (isDigit_ne hd (by decide : ('t' : Char).isDigit = false)),
            if_neg (isDigit_ne hd (by decide : ('f' : Char).isDigit = false)),
            if_neg (isDigit_ne hd (by decide : ('"' : Char).isDigit = false)),
            if_neg (isDigit_ne hd (by decide : ('-' : Char).isDigit = false)),
            if_neg (isDigit_ne hd (by decide : ('[' : Char).isDigit = false)),
            if_neg (isDigit_ne hd (by decide : ('{' : Char).isDigit = false)),
            hd, reduceIte, hacc]
          simp only [Option.some.injEq, Prod.mk.injEq, and_true, PRes.v.injEq, Json.num.injEq]
          rw [Int.toNat_of_nonneg (by omega)]
      | str s =>
        rw [stringifyV]
        simp only [List.cons_append, List.append_assoc, List.singleton_append]
        rw [parseGo_succ, parseStep.eq_def]
        simp only [Char.reduceEq, reduceIte, parseStrBody_round]
        rw [String.mk_data, List.nil_append]
      | arr xs =>
        cases xs with
        | nil =>
          rw [stringifyV, stringifyArr]
          rfl
        | cons v vs =>
          rw [stringifyV, stringifyArr]
          simp only [List.cons_append, List.append_assoc]
          have hsz : 2 + jsize v + lsize vs ≤ N := by
            simp only [jsize, lsize] at hN
            omega
          have hsf : 2 + jsize v + lsize vs ≤ f + 1 := by
            simp only [jsize, lsize] at hf
            omega
          have hv1 := jsize_pos v
          have hv2 := lsize_pos vs
          obtain ⟨c0, t, hct, hok⟩ := stringifyV_head v
          rw [parseGo_succ, parseStep.eq_def]
          simp only [Char.reduceEq, reduceIte]
          rw [hct]
          simp only [List.cons_append]
          split
          · next heq =>
            exfalso
            exact startOK_ne_rbrack hok (by injection heq)
          · rw [← List.cons_append, ← hct,
              (ih (N - 1) (by omega)).1 v (stringifyArrTail vs ++ rest) f (by omega) (by omega)
                (stopOK_arrTail vs rest)]
            simp only [(ih (N - 1) (by omega)).2.1 vs rest f (by omega) (by omega) hr]
      | obj fs =>
        cases fs with
        | nil =>
          rw [stringifyV, stringifyObj]
          rfl
        | cons k v fs =>
          rw [stringifyV, stringifyObj]
          simp only [List.cons_append, List.append_assoc]
          have hsz : 2 + jsize v + fsize fs ≤ N := by
            simp only [jsize, fsize] at hN
            omega
          have hsf : 2 + jsize v + fsize fs ≤ f + 1 := by
            simp only [jsize, fsize] at hf
            omega
          have hv1 := jsize_pos v
          have hv2 := fsize_pos fs
          obtain ⟨f', rfl⟩ : ∃ f', f = f' + 1 := ⟨f - 1, by omega⟩
          rw [parseGo_succ, parseStep.eq_def]
          simp only [Char.reduceEq, reduceIte]
          rw [parseGo_succ, parseStep.eq_def]
          simp only [parseStrBody_round]
          rw [(ih (N - 1) (by omega)).1 v (stringifyObjTail fs ++ rest) f' (by omega) (by omega)
            (stopOK_objTail fs rest)]
          simp only [String.mk_data, ← parseGo_succ]
          simp only [(ih (N - 1) (by omega)).2.2 fs rest (f' + 1) (by omega) (by omega) hr]
    · intro vs rest fuel hN hf hr
      obtain ⟨f, rfl⟩ : ∃ f, fuel = f + 1 := ⟨fuel - 1, by have := lsize_pos vs; omega⟩
      cases vs with
      | nil =>
        rw [stringifyArrTail]
        rfl
      | cons v vs =>
        rw [stringifyArrTail]
        simp only [List.cons_append, List.append_assoc]
        have hsz : 1 + jsize v + lsize vs ≤ N := by
          simp only [lsize] at hN
          omega
        have hsf : 1 + jsize v + lsize vs ≤ f + 1 := by
          simp only [lsize] at hf
          omega
        have hv1 := jsize_pos v
        have hv2 := lsize_pos vs
        rw [parseGo_succ, parseStep.eq_def]
        simp only [Char.reduceEq, reduceIte]
        rw [(ih (N - 1) (by omega)).1 v (stringifyArrTail vs ++ rest) f (by omega) (by omega)
          (stopOK_arrTail vs rest)]
        simp only [(ih (N - 1) (by omega)).2.1 vs rest f (by omega) (by omega) hr]
    · intro fs rest fuel hN hf hr
      obtain ⟨f, rfl⟩ : ∃ f, fuel = f + 1 := ⟨fuel - 1, by have := fsize_pos fs; omega⟩
      cases fs with
      | nil =>
        rw [stringifyObjTail]
        rfl
      | cons k v fs =>
        rw [stringifyObjTail]
        simp only [List.cons_append, List.append_assoc]
        have hsz : 1 + jsize v + fsize fs ≤ N := by
          simp only [fsize] at hN
          omega
        have hsf : 1 + jsize v + fsize fs ≤ f + 1 := by
          simp only [fsize] at hf
          omega
        have hv1 := jsize_pos v
        have hv2 := fsize_pos fs
        obtain ⟨f', rfl⟩ : ∃ f', f = f' + 1 := ⟨f - 1, by omega⟩
        rw [parseGo_succ, parseStep.eq_def]
        simp only [Char.reduceEq, reduceIte]
        rw [parseGo_succ, parseStep.eq_def]
        simp only [parseStrBody_round]
        rw [(ih (N - 1) (by omega)).1 v (stringifyObjTail fs ++ rest) f' (by omega) (by omega)
          (stopOK_objTail fs rest)]
        simp only [String.mk_data, ← parseGo_succ]
        simp only [(ih (N - 1) (by omega)).2.2 fs rest (f' + 1) (by omega) (by omega) hr]

theorem parseGo_val_rt (v : Json) (rest : List Char) (fuel : Nat) (hf : jsize v ≤ fuel)
    (hr : stopOK rest) :
    parseGo fuel PMode.val (stringifyV v ++ rest) = some (PRes.v v, rest) :=
  (parseGo_rt_bundle (jsize v)).1 v rest fuel le_rfl hf hr

theorem parseGo_arrTail_rt (vs : JsonList) (rest : List Char) (fuel : Nat)
    (hf : lsize vs ≤ fuel) (hr : stopOK rest) :
    parseGo fuel PMode.arrTail (stringifyArrTail vs ++ rest) = some (PRes.vs vs, rest) :=
  (parseGo_rt_bundle (lsize vs)).2.1 vs rest fuel le_rfl hf hr

theorem parseGo_objTail_rt (fs : JsonFields) (rest : List Char) (fuel : Nat)
    (hf : fsize fs ≤ fuel) (hr : stopOK rest) :
    parseGo fuel PMode.objTail (stringifyObjTail fs ++ rest) = some (PRes.fs fs, rest) :=
  (parseGo_rt_bundle (fsize fs)).2.2 fs rest fuel le_rfl hf hr

theorem size_le_bundle (N : Nat) :
    (∀ v : Json, jsize v ≤ N → jsize v ≤ 2 * (stringifyV v).length) ∧
    (∀ vs : JsonList, lsize vs ≤ N → lsize vs ≤ 2 * (stringifyArrTail vs).length) ∧
    (∀ fs : JsonFields, fsize fs ≤ N → fsize fs ≤ 2 * (stringifyObjTail fs).length) := by
  induction N using Nat.strong_induction_on with
  | _ N ih =>
    refine ⟨?_, ?_, ?_⟩
    · intro v hN
      cases v with
      | null => simp [jsize, stringifyV]
      | bool b => cases b <;> simp [jsize, stringifyV]
      | num n =>
        have h1 : 1 ≤ (intChars n).length := by
          rw [intChars]
          split
          · simp
          · exact List.length_pos.mpr (natChars_ne_nil _)
        simp only [jsize, stringifyV]
        omega
      | str s =>
        simp only [jsize, stringifyV, List.length_cons, List.length_append]
        omega
      | arr xs =>
        cases xs with
        | nil => simp [jsize, lsize, stringifyV, stringifyArr]
        | cons v vs =>
          have hszv : jsize v ≤ N - 1 := by
            have := lsize_pos vs
            simp only [jsize, lsize] at hN
            omega
          have hszvs : lsize vs ≤ N - 1 := by
            have := jsize_pos v
            simp only [jsize, lsize] at hN
            omega
          have hNpos : 1 ≤ N := by
            have := jsize_pos v
            have := lsize_pos vs
            simp only [jsize, lsize] at hN
            omega
          have h1 := (ih (N - 1) (by omega)).1 v hszv
          have h2 := (ih (N - 1) (by omega)).2.1 vs hszvs
          simp only [jsize, lsize, stringifyV, stringifyArr, List.length_cons,
            List.length_append]
          omega
      | obj fs =>
        cases fs with
        | nil => simp [jsize, fsize, stringifyV, stringifyObj]
        | cons k v fs =>
          have hszv : jsize v ≤ N - 1 := by
            have := fsize_pos fs
            simp only [jsize, fsize] at hN
            omega
          have hszfs : fsize fs ≤ N - 1 := by
            have := jsize_pos v
            simp only [jsize, fsize] at hN
            omega
          have hNpos : 1 ≤ N := by
            have := jsize_pos v
            have := fsize_pos fs
            simp only [jsize, fsize] at hN
            omega
          have h1 := (ih (N - 1) (by omega)).1 v hszv
          have h2 := (ih (N - 1) (by omega)).2.2 fs hszfs
          simp only [jsize, fsize, stringifyV, stringifyObj, List.length_cons,
            List.length_append]
          omega
    · intro vs hN
      cases vs with
      | nil => simp [lsize, stringifyArrTail]
      | cons v vs =>
        have hszv : jsize v ≤ N - 1 := by
          have := lsize_pos vs
          simp only [lsize] at hN
          omega
        have hszvs : lsize vs ≤ N - 1 := by
          have := jsize_pos v
          simp only [lsize] at hN
          omega
        have hNpos : 1 ≤ N := by
          have := jsize_pos v
          have := lsize_pos vs
          simp only [lsize] at hN
          omega
        have h1 := (ih (N - 1) (by omega)).1 v hszv
        have h2 := (ih (N - 1) (by omega)).2.1 vs hszvs
        simp only [lsize, stringifyArrTail, List.length_cons, List.length_append]
        omega
    · intro fs hN
      cases fs with
      | nil => simp [fsize, stringifyObjTail]
      | cons k v fs =>
        have hszv : jsize v ≤ N - 1 := by
          have := fsize_pos fs
          simp only [fsize] at hN
          omega
        have hszfs : fsize fs ≤ N - 1 := by
          have := jsize_pos v
          simp only [fsize] at hN
          omega
        have hNpos : 1 ≤ N := by
          have := jsize_pos v
          have := fsize_pos fs
          simp only [fsize] at hN
          omega
        have h1 := (ih (N - 1) (by omega)).1 v hszv
        have h2 := (ih (N - 1) (by omega)).2.2 fs hszfs
        simp only [fsize, stringifyObjTail, List.length_cons, List.length_append]
        omega

theorem String.data_mk (cs : List Char) : (String.mk cs).data = cs := rfl

/-- The modelled `JSON.parse` inverts the modelled `JSON.stringify`: the
builtin pair's round-trip contract, proved for the concrete model. -/
theorem jsonParse_stringify (v : Json) : jsonParse (jsonStringify v) = some v := by
  have hb : jsize v ≤ 2 * (stringifyV v).length + 2 := by
    have := (size_le_bundle (jsize v)).1 v le_rfl
    omega
  have h := parseGo_val_rt v [] (2 * (stringifyV v).length + 2) hb trivial
  rw [List.append_nil] at h
  rw [jsonParse, jsonStringify, parseV, String.data_mk, h]

/-- The serializer is injective: two values printing to the same text are
equal. A corollary of the round trip. -/
theorem stringifyV_inj {v w : Json} (h : stringifyV v = stringifyV w) : v = w := by
  have h1 := parseGo_val_rt v [] (max (jsize v) (jsize w)) (le_max_left _ _) trivial
  have h2 := parseGo_val_rt w [] (max (jsize v) (jsize w)) (le_max_right _ _) trivial
  rw [List.append_nil] at h1 h2
  rw [h, h2] at h1
  injection h1 with h1
  injection h1 with h1 h1x
  injection h1 with h1
  exact h1.symm

theorem jsonStringify_inj {v w : Json} (h : jsonStringify v = jsonStringify w) : v = w := by
  apply stringifyV_inj
  have := congrArg String.data h
  rwa [jsonStringify, jsonStringify, String.data_mk, String.data_mk] at this

/-! ## The reversible byte-to-text transform: `hex` encoding and `hex2ascii`

`Block` bodies are stored as `Buffer.from(JSON.stringify(data)).toString("hex")`
and read back with the `hex2ascii` package. The model keeps the transform's
contract — a reversible, injective text encoding — encoding each character's
code point as six fixed-width hexadecimal digits (every Unicode code point is
below `16^6`), abstracting from the byte-level UTF-8 details. -/

def hexDigitChar : Nat → Char
  | 0 => '0'
  | 1 => '1'
  | 2 => '2'
  | 3 => '3'
  | 4 => '4'
  | 5 => '5'
  | 6 => '6'
  | 7 => '7'
  | 8 => '8'
  | 9 => '9'
  | 10 => 'a'
  | 11 => 'b'
  | 12 => 'c'
  | 13 => 'd'
  | 14 => 'e'
  | 15 => 'f'
  | _ => '0'

def hexVal (c : Char) : Nat :=
  if c = '0' then 0
  else if c = '1' then 1
  else if c = '2' then 2
  else if c = '3' then 3
  else if c = '4' then 4
  else if c = '5' then 5
  else if c = '6' then 6
  else if c = '7' then 7
  else if c = '8' then 8
  else if c = '9' then 9
  else if c = 'a' then 10
  else if c = 'b' then 11
  else if c = 'c' then 12
  else if c = 'd' then 13
  else if c = 'e' then 14
  else if c = 'f' then 15
  else 0

/-- Six hex digits of one character's code point, most significant first. -/
def charToHex (c : Char) : List Char :=
  [hexDigitChar (c.toNat / 1048576 % 16), hexDigitChar (c.toNat / 65536 % 16),
    hexDigitChar (c.toNat / 4096 % 16), hexDigitChar (c.toNat / 256 % 16),
    hexDigitChar (c.toNat / 16 % 16), hexDigitChar (c.toNat % 16)]

def hexEncodeChars : List Char → List Char
  | [] => []
  | c :: cs => charToHex c ++ hexEncodeChars cs

/-- `Buffer.from(s).toString("hex")` in the model. -/
def hexEncode (s : String) : String := String.mk (hexEncodeChars s.data)

def hexDecodeChars : List Char → List Char
  | c1 :: c2 :: c3 :: c4 :: c5 :: c6 :: rest =>
    Char.ofNat (hexVal c1 * 1048576 + hexVal c2 * 65536 + hexVal c3 * 4096 +
      hexVal c4 * 256 + hexVal c5 * 16 + hexVal c6) :: hexDecodeChars rest
  | _ => []

/-- The `hex2ascii` module in the model: decodes the fixed-width hex text
back to the original characters. -/
def hex2ascii (s : String) : String := String.mk (hexDecodeChars s.data)

theorem hexVal_hexDigitChar {n : Nat} (h : n < 16) : hexVal (hexDigitChar n) = n := by
  interval_cases n <;> decide

theorem char_toNat_lt (c : Char) : c.toNat < 16777216 := by
  have h := c.valid
  have he : c.toNat = c.val.toNat := rfl
  rcases h with h | h
  · omega
  · omega

theorem hexDecode_charToHex (c : Char) (rest : List Char) :
    hexDecodeChars (charToHex c ++ rest) = c :: hexDecodeChars rest := by
  rw [charToHex]
  simp only [List.cons_append, List.nil_append]
  rw [hexDecodeChars]
  have hlt := char_toNat_lt c
  rw [hexVal_hexDigitChar (by omega), hexVal_hexDigitChar (by omega),
    hexVal_hexDigitChar (by omega), hexVal_hexDigitChar (by omega),
    hexVal_hexDigitChar (by omega), hexVal_hexDigitChar (by omega)]
  have hsum : c.toNat / 1048576 % 16 * 1048576 + c.toNat / 65536 % 16 * 65536 +
      c.toNat / 4096 % 16 * 4096 + c.toNat / 256 % 16 * 256 +
      c.toNat / 16 % 16 * 16 + c.toNat % 16 = c.toNat := by
    omega
  rw [hsum, Char.ofNat_toNat]

theorem hexDecode_hexEncode (cs : List Char) : hexDecodeChars (hexEncodeChars cs) = cs := by
  induction cs with
  | nil => rfl
  | cons c cs ih =>
    rw [hexEncodeChars, hexDecode_charToHex, ih]

/-- The byte-to-text transform round-trips, as the design document requires
of the external encoding pair. -/
theorem hex2ascii_hexEncode (s : String) : hex2ascii (hexEncode s) = s := by
  rw [hex2ascii, hexEncode, String.data_mk, hexDecode_hexEncode, String.mk_data]

/-! ## The external digest: SHA-256

`crypto-js/sha256` is the black-box `HashFunction` of the design: a
deterministic digest whose freedom from collisions the document delegates to
the primitive itself. It is modelled as an ideal (injective) digest — a
deterministic function that never collides — which is exactly the contract
the chain-integrity arguments are allowed to assume. -/

def SHA256 (s : String) : String := String.mk ('#' :: s.data)

theorem SHA256_inj {a b : String} (h : SHA256 a = SHA256 b) : a = b := by
  rw [SHA256, SHA256] at h
  injection h with h
  injection h with h1 h2
  cases a
  cases b
  simp only at h2
  rw [h2]

theorem SHA256_ne_empty (s : String) : SHA256 s ≠ "" := by
  rw [SHA256]
  intro h
  have := congrArg String.data h
  simp [String.data_mk] at this

/-! ## `Block` (src/Block.ts)

Field order matters: `generateHash` serializes `{ hash, ...block }`'s rest
object, whose keys keep the constructor's insertion order
`height, body, time, previousBlockHash`. -/

structure Block where
  hash : Option String
  height : Int
  body : String
  time : Int
  previousBlockHash : Option String
deriving DecidableEq

/-- `new Block(data)`: stores the hex-encoded JSON serialization of the
payload in `body`; every other field starts at its JavaScript initial value
(`null` hash and previous hash, height `0`, time `0`). -/
def Block.new (data : Json) : Block :=
  { hash := none
    height := 0
    body := hexEncode (jsonStringify data)
    time := 0
    previousBlockHash := none }

/-- The JSON value a nullable string serializes as. -/
def jsonOfOptStr : Option String → Json
  | none => Json.null
  | some s => Json.str s

/-- `JSON.stringify` of `{ hash, ...block }`'s rest object: exactly the
fields `height`, `body`, `time`, `previousBlockHash`, in insertion order,
with `hash` excluded. -/
def blockSerialize (b : Block) : String :=
  jsonStringify (Json.obj (JsonFields.cons "height" (Json.num b.height)
    (JsonFields.cons "body" (Json.str b.body)
      (JsonFields.cons "time" (Json.num b.time)
        (JsonFields.cons "previousBlockHash" (jsonOfOptStr b.previousBlockHash)
          JsonFields.nil)))))

/-- `Block.generateHash()`: assigns `this.hash = SHA256(JSON.stringify(block))`
where `block` omits the `hash` field. -/
def Block.generateHash (b : Block) : Block :=
  { b with hash := some (SHA256 (blockSerialize b)) }

/-- `Block.validate()`: saves the current hash, recomputes it in place, and
reports whether the two agree. The recomputation is a real side effect — the
returned block carries the freshly computed hash even on a mismatch. -/
def Block.validate (b : Block) : Block × Bool :=
  let b' := b.generateHash
  (b', b.hash == b'.hash)

/-- `Block.getBData()`: `null` for the genesis block (height 0) regardless of
the stored body; otherwise decode the hex text and parse the JSON.
A `none` result at non-zero height is the `JSON.parse` failure (DecodeError). -/
def Block.getBData (b : Block) : Option Json :=
  if b.height = 0 then none else jsonParse (hex2ascii b.body)

/-! ## `BlockMessage` (src/Message.ts)

Only the fields and the parsing path used by `submitStar` are modelled; the
`time` field is `Option Int`, with `none` standing for JavaScript's `NaN`
(the result of `+undefined` or `+garbage`). -/

structure BlockMessage where
  address : String
  time : Option Int
deriving DecidableEq

/-- `new BlockMessage()`: both constructor arguments defaulted. -/
def newBlockMessage : BlockMessage := { address := "", time := some 0 }

/-- JavaScript's unary `+` on the strings that can appear in a challenge
message: the empty string is `0`, decimal numerals (optionally negative)
are their value, anything else is `NaN` (`none`). -/
def jsToNumber (s : String) : Option Int :=
  match s.data with
  | [] => some 0
  | '-' :: rest =>
    if rest ≠ [] ∧ rest.all Char.isDigit then some (-((parseNatAcc 0 rest).1 : Int)) else none
  | cs => if cs.all Char.isDigit then some ((parseNatAcc 0 cs).1 : Int) else none

/-- `String.prototype.split` with a single-character separator, at the
character level: `"a:b".split(':')` is `["a", "b"]`, the empty string splits
to `[""]`, and separators at the ends produce empty components, exactly as in
JavaScript. -/
def splitChars (sep : Char) : List Char → List (List Char)
  | [] => [[]]
  | c :: cs =>
    if c = sep then [] :: splitChars sep cs
    else
      match splitChars sep cs with
      | r :: rs => (c :: r) :: rs
      | [] => [[c]]

def jsSplit (s : String) (sep : Char) : List String :=
  (splitChars sep s.data).map String.mk

/-- `BlockMessage.parse(message)`: `const [address, time] = message.split(':')`;
a missing second component is `undefined`, whose numeric coercion is `NaN`. -/
def BlockMessage.parse (m : BlockMessage) (message : String) : BlockMessage :=
  let parts := jsSplit message ':'
  { m with
    address := parts.getD 0 ""
    time := match parts.get? 1 with
      | some t => jsToNumber t
      | none => none }

/-! ## `Blockchain` (src/Blockchain.ts) -/

/-- `ValidTime(timeInSeconds)`: literally `getTimeInSeconds() - timeInSeconds > 300`,
with the current time passed explicitly. Note the polarity: this is `true`
for a challenge MORE than 300 seconds old. A `NaN` time compares as `false`.
-/
def ValidTime (now : Int) (timeInSeconds : Option Int) : Bool :=
  match timeInSeconds with
  | some t => decide (now - t > 300)
  | none => false

structure Blockchain where
  _chain : List Block
  _height : Int
deriving DecidableEq

/-- `Array.prototype.find`, also reporting the index of the first match so
that in-place mutation of the found element can be modelled. -/
def findIdxBlock (p : Block → Bool) : List Block → Option (Nat × Block)
  | [] => none
  | b :: bs =>
    if p b then some (0, b)
    else (findIdxBlock p bs).map (fun q => (q.1 + 1, q.2))

/-- `getBlockByHash(hash)`: first block whose (nullable) `hash` field is
strictly equal to the argument, or `null`. -/
def Blockchain.getBlockByHash (bc : Blockchain) (h : Option String) : Option Block :=
  (findIdxBlock (fun b => b.hash == h) bc._chain).map (fun q => q.2)

/-- `getBlockByHeight(height)`. -/
def Blockchain.getBlockByHeight (bc : Blockchain) (h : Int) : Option Block :=
  (findIdxBlock (fun b => b.height == h) bc._chain).map (fun q => q.2)

/-- `getLatestBlock()` = `getBlockByHeight(this.height)`. -/
def Blockchain.getLatestBlock (bc : Blockchain) : Option Block :=
  bc.getBlockByHeight bc._height

/-- JavaScript truthiness of the loop condition
`currentBlock?.previousBlockHash`: false for a missing block, a `null` hash,
and the empty string. -/
def optStrTruthy : Option String → Bool
  | none => false
  | some s => s != ""

/-- `${currentBlock.hash}` in the fault message template. -/
def jsTemplateOptStr : Option String → String
  | some s => s
  | none => "null"

/-- The body of `validateChain`'s backward `while` walk. One fuel unit is
spent per loop iteration; `none` marks a walk that would not terminate
within the allotted fuel. Each iteration validates the current block —
healing its hash in place, which the chain write-back `c.set` records —
pushes a fault message for a mismatch, and moves to
`getBlockByHash(currentBlock.previousBlockHash)`; if that lookup finds
nothing the loop condition goes false and the walk simply ends. -/
def validateChainGo : Nat → List Block → List String → Option (Nat × Block) →
    Option (List Block × List String)
  | 0 => fun c log cur =>
    match cur with
    | none => some (c, log)
    | some (_, b) =>
      if optStrTruthy b.previousBlockHash then none else some (c, log)
  | fuel + 1 => fun c log cur =>
    match cur with
    | none => some (c, log)
    | some (i, b) =>
      if optStrTruthy b.previousBlockHash then
        let v := b.validate
        let c' := c.set i v.1
        let log' := if v.2 then log
          else log ++ ["Block " ++ jsTemplateOptStr v.1.hash ++ " is invalid!"]
        validateChainGo fuel c' log'
          (findIdxBlock (fun x => x.hash == v.1.previousBlockHash) c')
      else some (c, log)

/-- `validateChain()`: start from `getLatestBlock()` (recording the
"Latest block not found!" fault when it is missing), walk backward, and
return the final chain state together with the accumulated `errorLog`; the
JavaScript method then throws `InvalidChainError(errorLog)` exactly when the
log is non-empty. Fuel `length + 1` is reached only by a walk that revisits
a block, which in JavaScript loops forever; `none` models that divergence. -/
def Blockchain.validateChain (bc : Blockchain) : Option (Blockchain × List String) :=
  let init := findIdxBlock (fun b => b.height == bc._height) bc._chain
  let log0 : List String := match init with
    | none => ["Latest block not found!"]
    | some _ => []
  (validateChainGo (bc._chain.length + 1) bc._chain log0 init).map
    (fun p => ({ bc with _chain := p.1 }, p.2))

/-- `_addBlock(block)`: assign height and timestamp, link to the latest
block's hash when one exists, compute the block's hash, push it, bump the
height, and re-validate the whole chain. The pushed state persists even when
validation then reports faults (the JavaScript promise rejects after the
push); the fault list is returned alongside. -/
def Blockchain._addBlock (bc : Blockchain) (block : Block) (now : Int) :
    Option (Blockchain × Block × List String) :=
  let blk1 := { block with height := bc._height + 1, time := now }
  let blk2 := match bc.getLatestBlock with
    | some latestBlock =>
      if bc._height > -1 then { blk1 with previousBlockHash := latestBlock.hash } else blk1
    | none => blk1
  let blk3 := blk2.generateHash
  let bc1 : Blockchain := { _chain := bc._chain ++ [blk3], _height := bc._height + 1 }
  bc1.validateChain.map (fun p => (p.1, blk3, p.2))

/-- The genesis payload `{data: 'Genesis Block'}`. -/
def genesisData : Json :=
  Json.obj (JsonFields.cons "data" (Json.str "Genesis Block") JsonFields.nil)

/-- `initializeChain()`: create the genesis block through `_addBlock` when the
height is still `-1`. -/
def Blockchain.initializeChain (bc : Blockchain) (now : Int) : Option Blockchain :=
  if bc._height = -1 then
    (bc._addBlock (Block.new genesisData) now).map (fun p => p.1)
  else some bc

/-- The `Blockchain` constructor: empty chain, height `-1`, then
`initializeChain()`. -/
def Blockchain.new (now : Int) : Option Blockchain :=
  Blockchain.initializeChain { _chain := [], _height := -1 } now

/-- The errors `submitStar` can surface: the two gate rejections (by their
JavaScript messages) and `InvalidChainError` with its fault list. -/
inductive BlockchainError where
  | messageTooOld : BlockchainError
  | messageInvalid : BlockchainError
  | invalidChain : List String → BlockchainError
deriving DecidableEq

/-- `submitStar(address, message, signature, star)`: parse the challenge time
from the message, throw "Message is too old!" unless `ValidTime` holds, then
throw "Message is invalid!" unless the signature verifies, then build the
`{owner, star}` block and append it. The external `bitcoinMessage.verify` is
passed in as a function. The returned state is the ledger as the caller
observes it afterwards: unchanged on a gate rejection, appended-to otherwise.
-/
def Blockchain.submitStar (bc : Blockchain) (now : Int) (address message signature : String)
    (verify : String → String → String → Bool) (star : Json) :
    Option (Blockchain × Except BlockchainError Block) :=
  let messageTime := (newBlockMessage.parse message).time
  if !(ValidTime now messageTime) then
    some (bc, Except.error BlockchainError.messageTooOld)
  else if !(verify message address signature) then
    some (bc, Except.error BlockchainError.messageInvalid)
  else
    (bc._addBlock (Block.new (Json.obj (JsonFields.cons "owner" (Json.str address)
      (JsonFields.cons "star" star JsonFields.nil)))) now).map
      (fun p => (p.1,
        if p.2.2.isEmpty then Except.ok p.2.1
        else Except.error (BlockchainError.invalidChain p.2.2)))

/-! ## List positions -/

/-- Default block used by the total indexing function below. -/
def blk0 : Block :=
  { hash := none, height := 0, body := "", time := 0, previousBlockHash := none }

/-- Total position access into a chain. -/
def nthB (l : List Block) (i : Nat) : Block := l.getD i blk0

theorem nthB_cons_zero (b : Block) (l : List Block) : nthB (b :: l) 0 = b := rfl

theorem nthB_cons_succ (b : Block) (l : List Block) (i : Nat) :
    nthB (b :: l) (i + 1) = nthB l i := rfl

theorem getq_nthB : ∀ (l : List Block) (i : Nat), i < l.length → l.get? i = some (nthB l i) := by
  intro l
  induction l with
  | nil => intro i h; simp at h
  | cons b bs ih =>
    intro i h
    cases i with
    | zero => rfl
    | succ i =>
      rw [List.get?_cons_succ, nthB_cons_succ]
      exact ih i (by simpa using h)

theorem nthB_set_eq : ∀ (l : List Block) (i : Nat) (b : Block), i < l.length →
    nthB (l.set i b) i = b := by
  intro l
  induction l with
  | nil => intro i b h; simp at h
  | cons x xs ih =>
    intro i b h
    cases i with
    | zero => rfl
    | succ i =>
      rw [List.set_cons_succ, nthB_cons_succ]
      exact ih i b (by simpa using h)

theorem nthB_set_ne : ∀ (l : List Block) (i j : Nat) (b : Block), j ≠ i →
    nthB (l.set i b) j = nthB l j := by
  intro l
  induction l with
  | nil => intro i j b h; rfl
  | cons x xs ih =>
    intro i j b h
    cases i with
    | zero =>
      cases j with
      | zero => exact absurd rfl h
      | succ j => rfl
    | succ i =>
      cases j with
      | zero => rfl
      | succ j =>
        rw [List.set_cons_succ, nthB_cons_succ, nthB_cons_succ]
        exact ih i j b (by omega)

theorem set_nthB_self : ∀ (l : List Block) (i : Nat), i < l.length →
    l.set i (nthB l i) = l := by
  intro l
  induction l with
  | nil => intro i h; simp at h
  | cons x xs ih =>
    intro i h
    cases i with
    | zero => rfl
    | succ i =>
      rw [nthB_cons_succ, List.set_cons_succ, ih i (by simpa using h)]

/-! ## The `find` specification -/

theorem findIdxBlock_spec (p : Block → Bool) :
    ∀ (l : List Block) (k : Nat), k < l.length →
    (∀ j, j < k → p (nthB l j) = false) → p (nthB l k) = true →
    findIdxBlock p l = some (k, nthB l k) := by
  intro l
  induction l with
  | nil => intro k h; simp at h
  | cons b bs ih =>
    intro k hk hlt hk'
    cases k with
    | zero =>
      rw [nthB_cons_zero] at hk'
      rw [findIdxBlock, if_pos hk']
      rfl
    | succ k =>
      have h0 : p b = false := by
        have := hlt 0 (by omega)
        rwa [nthB_cons_zero] at this
      rw [findIdxBlock, if_neg (by simp [h0])]
      rw [nthB_cons_succ] at hk'
      rw [ih k (by simpa using hk) (fun j hj => by
        have := hlt (j + 1) (by omega)
        rwa [nthB_cons_succ] at this) hk']
      rfl

theorem findIdxBlock_none (p : Block → Bool) :
    ∀ l : List Block, (∀ b ∈ l, p b = false) → findIdxBlock p l = none := by
  intro l
  induction l with
  | nil => intro h; rfl
  | cons b bs ih =>
    intro h
    rw [findIdxBlock, if_neg (by simp [h b (List.mem_cons_self _ _)]),
      ih (fun x hx => h x (List.mem_cons_of_mem _ hx))]
    rfl

/-! ## Hash-correct blocks -/

/-- A block whose stored hash is the digest of its own serialization. -/
def hashCorrect (b : Block) : Prop := b.hash = some (SHA256 (blockSerialize b))

theorem blockSerialize_ignores_hash (b : Block) (h : Option String) :
    blockSerialize { b with hash := h } = blockSerialize b := rfl

theorem hashCorrect_generateHash (b : Block) : hashCorrect b.generateHash := rfl

theorem generateHash_of_correct {b : Block} (h : hashCorrect b) : b.generateHash = b := by
  rw [Block.generateHash, ← h]

theorem jsonOfOptStr_inj {a b : Option String} (h : jsonOfOptStr a = jsonOfOptStr b) : a = b := by
  cases a with
  | none =>
    cases b with
    | none => rfl
    | some s => exact absurd h (by rw [jsonOfOptStr, jsonOfOptStr]; intro hx; cases hx)
  | some s =>
    cases b with
    | none => exact absurd h (by rw [jsonOfOptStr, jsonOfOptStr]; intro hx; cases hx)
    | some t =>
      rw [jsonOfOptStr, jsonOfOptStr] at h
      injection h with h
      rw [h]

/-- The canonical serialization determines (exactly) the four serialized
fields: two blocks with the same serialization agree on `height`, `body`,
`time` and `previousBlockHash`. -/
theorem blockSerialize_inj {b b' : Block} (h : blockSerialize b = blockSerialize b') :
    b.height = b'.height ∧ b.body = b'.body ∧ b.time = b'.time ∧
      b.previousBlockHash = b'.previousBlockHash := by
  rw [blockSerialize, blockSerialize] at h
  have h1 := jsonStringify_inj h
  injection h1 with h1
  injection h1 with hk hv h1
  injection hv with hv
  injection h1 with hk2 hv2 h1
  injection hv2 with hv2
  injection h1 with hk3 hv3 h1
  injection hv3 with hv3
  injection h1 with hk4 hv4 h1
  exact ⟨hv, hv2, hv3, jsonOfOptStr_inj hv4⟩

theorem hash_eq_fields {b b' : Block} (hb : hashCorrect b) (hb' : hashCorrect b')
    (h : b.hash = b'.hash) :
    b.height = b'.height ∧ b.body = b'.body ∧ b.time = b'.time ∧
      b.previousBlockHash = b'.previousBlockHash := by
  rw [hb, hb'] at h
  injection h with h
  exact blockSerialize_inj (SHA256_inj h)

/-! ## Stepping the validation walk -/

theorem validateChainGo_none (fuel : Nat) (c : List Block) (log : List String) :
    validateChainGo fuel c log none = some (c, log) := by
  cases fuel <;> rfl

theorem validateChainGo_exit (fuel : Nat) (c : List Block) (log : List String)
    (i : Nat) (b : Block) (h : optStrTruthy b.previousBlockHash = false) :
    validateChainGo fuel c log (some (i, b)) = some (c, log) := by
  cases fuel with
  | zero =>
    rw [show validateChainGo 0 c log (some (i, b)) =
      (if optStrTruthy b.previousBlockHash then none else some (c, log)) from rfl, h]
    rfl
  | succ f =>
    rw [show validateChainGo (f + 1) c log (some (i, b)) =
      (if optStrTruthy b.previousBlockHash then
        validateChainGo f (c.set i b.generateHash)
          (if b.hash == b.generateHash.hash then log
            else log ++ ["Block " ++ jsTemplateOptStr b.generateHash.hash ++ " is invalid!"])
          (findIdxBlock (fun x => x.hash == b.generateHash.previousBlockHash)
            (c.set i b.generateHash))
      else some (c, log)) from rfl, h]
    rfl

theorem validateChainGo_step (fuel : Nat) (c : List Block) (log : List String)
    (i : Nat) (b : Block) (h : optStrTruthy b.previousBlockHash = true) :
    validateChainGo (fuel + 1) c log (some (i, b)) =
      validateChainGo fuel (c.set i b.generateHash)
        (if b.hash == b.generateHash.hash then log
          else log ++ ["Block " ++ jsTemplateOptStr b.generateHash.hash ++ " is invalid!"])
        (findIdxBlock (fun x => x.hash == b.generateHash.previousBlockHash)
          (c.set i b.generateHash)) := by
  rw [show validateChainGo (fuel + 1) c log (some (i, b)) =
    (if optStrTruthy b.previousBlockHash then
      validateChainGo fuel (c.set i b.generateHash)
        (if b.hash == b.generateHash.hash then log
          else log ++ ["Block " ++ jsTemplateOptStr b.generateHash.hash ++ " is invalid!"])
        (findIdxBlock (fun x => x.hash == b.generateHash.previousBlockHash)
          (c.set i b.generateHash))
    else some (c, log)) from rfl, h]
  rfl

/-! ## The reachable-state invariant -/

/-- The invariant every ledger reachable through the public operations
satisfies: non-empty chain, ledger height = chain size - 1, positional
heights, hash-correct blocks, a genesis with no previous hash, and each
later block linking to its predecessor's hash. -/
def ChainInv (bc : Blockchain) : Prop :=
  bc._chain ≠ [] ∧
  bc._height = (bc._chain.length : Int) - 1 ∧
  (∀ i, i < bc._chain.length → (nthB bc._chain i).height = (i : Int)) ∧
  (∀ i, i < bc._chain.length → hashCorrect (nthB bc._chain i)) ∧
  (nthB bc._chain 0).previousBlockHash = none ∧
  (∀ i, i < bc._chain.length - 1 →
    (nthB bc._chain (i + 1)).previousBlockHash = (nthB bc._chain i).hash)

theorem inv_hash_inj (c : List Block)
    (hts : ∀ j, j < c.length → (nthB c j).height = (j : Int))
    (hhc : ∀ j, j < c.length → hashCorrect (nthB c j)) :
    ∀ j1 j2, j1 < c.length → j2 < c.length →
      (nthB c j1).hash = (nthB c j2).hash → j1 = j2 := by
  intro j1 j2 h1 h2 he
  have hf := hash_eq_fields (hhc j1 h1) (hhc j2 h2) he
  have := hf.1
  rw [hts j1 h1, hts j2 h2] at this
  exact_mod_cast this

theorem stored_hash_some (c : List Block)
    (hhc : ∀ j, j < c.length → hashCorrect (nthB c j)) :
    ∀ j, j < c.length → ∃ s, (nthB c j).hash = some s ∧ s ≠ "" := by
  intro j hj
  exact ⟨SHA256 (blockSerialize (nthB c j)), hhc j hj, SHA256_ne_empty _⟩

/-- The backward walk over a segment of hash-correct, properly linked blocks
reaches the genesis and records nothing: starting at position `i`, with
every block from position 1 to `i` hash-correct, the walk visits positions
`i, i-1, …, 1`, heals nothing, and ends at the genesis without validating
it. -/
theorem go_clean (c : List Block) :
    ∀ i, i < c.length →
    (∀ j, 1 ≤ j → j ≤ i → hashCorrect (nthB c j)) →
    (∀ j, j + 1 ≤ i → (nthB c (j + 1)).previousBlockHash = (nthB c j).hash) →
    (nthB c 0).previousBlockHash = none →
    (∀ j, j < c.length → ∃ s, (nthB c j).hash = some s ∧ s ≠ "") →
    (∀ j1 j2, j1 < c.length → j2 < c.length →
      (nthB c j1).hash = (nthB c j2).hash → j1 = j2) →
    ∀ fuel log, i ≤ fuel →
    validateChainGo fuel c log (some (i, nthB c i)) = some (c, log) := by
  intro i
  induction i with
  | zero =>
    intro hlen hhc hlink h0 hsome hinj fuel log hfuel
    exact validateChainGo_exit fuel c log 0 (nthB c 0) (by rw [h0]; rfl)
  | succ i ih =>
    intro hlen hhc hlink h0 hsome hinj fuel log hfuel
    obtain ⟨f, rfl⟩ : ∃ f, fuel = f + 1 := ⟨fuel - 1, by omega⟩
    have hprev : (nthB c (i + 1)).previousBlockHash = (nthB c i).hash :=
      hlink i (by omega)
    obtain ⟨s, hs, hsne⟩ := hsome i (by omega)
    have htr : optStrTruthy (nthB c (i + 1)).previousBlockHash = true := by
      rw [hprev, hs]
      simp [optStrTruthy, hsne]
    rw [validateChainGo_step f c log (i + 1) _ htr]
    have hgc : (nthB c (i + 1)).generateHash = nthB c (i + 1) :=
      generateHash_of_correct (hhc (i + 1) (by omega) (by omega))
    rw [hgc, set_nthB_self c (i + 1) hlen]
    rw [if_pos (beq_self_eq_true _)]
    have hfind : findIdxBlock (fun x => x.hash == (nthB c (i + 1)).previousBlockHash) c =
        some (i, nthB c i) := by
      have := findIdxBlock_spec (fun x => x.hash == (nthB c (i + 1)).previousBlockHash) c i
        (by omega)
        (fun j hj => by
          rw [hprev]
          apply beq_eq_false_iff_ne.mpr
          intro he
          exact absurd (hinj j i (by omega) (by omega) he) (by omega))
        (by rw [hprev]; exact beq_self_eq_true _)
      exact this
    rw [hfind]
    exact ih (by omega) (fun j h1 h2 => hhc j h1 (by omega))
      (fun j hj => hlink j (by omega)) h0 hsome hinj f log (by omega)

theorem findLatest (bc : Blockchain) (hne : bc._chain ≠ [])
    (hht : bc._height = (bc._chain.length : Int) - 1)
    (hts : ∀ i, i < bc._chain.length → (nthB bc._chain i).height = (i : Int)) :
    findIdxBlock (fun b => b.height == bc._height) bc._chain =
      some (bc._chain.length - 1, nthB bc._chain (bc._chain.length - 1)) := by
  have hlen : 0 < bc._chain.length := List.length_pos.mpr hne
  apply findIdxBlock_spec
  · omega
  · intro j hj
    rw [hts j (by omega), hht]
    apply beq_eq_false_iff_ne.mpr
    intro he
    have : (j : Int) + 1 = (bc._chain.length : Int) := by omega
    omega
  · rw [hts (bc._chain.length - 1) (by omega), hht]
    apply beq_iff_eq.mpr
    push_cast [Nat.cast_sub (by omega : 1 ≤ bc._chain.length)]
    ring

/-- On an invariant-satisfying ledger, `validateChain` succeeds, records no
fault, and leaves the chain exactly as it was (every healing write is the
identity). -/
theorem validateChain_of_inv (bc : Blockchain) (h : ChainInv bc) :
    bc.validateChain = some (bc, []) := by
  obtain ⟨hne, hht, hts, hhc, h0, hlink⟩ := h
  have hlen : 0 < bc._chain.length := List.length_pos.mpr hne
  have hinit := findLatest bc hne hht hts
  rw [Blockchain.validateChain]
  simp only [hinit]
  rw [go_clean bc._chain (bc._chain.length - 1) (by omega)
    (fun j h1 h2 => hhc j (by omega))
    (fun j hj => hlink j (by omega))
    h0
    (stored_hash_some bc._chain hhc)
    (inv_hash_inj bc._chain hts hhc)
    (bc._chain.length + 1) [] (by omega)]
  rfl

theorem nthB_append_lt : ∀ (l l2 : List Block) (j : Nat), j < l.length →
    nthB (l ++ l2) j = nthB l j := by
  intro l
  induction l with
  | nil => intro l2 j h; simp at h
  | cons x xs ih =>
    intro l2 j h
    cases j with
    | zero => rfl
    | succ j =>
      rw [List.cons_append, nthB_cons_succ, nthB_cons_succ]
      exact ih l2 j (by simpa using h)

theorem nthB_append_len : ∀ (l : List Block) (b : Block),
    nthB (l ++ [b]) l.length = b := by
  intro l
  induction l with
  | nil => intro b; rfl
  | cons x xs ih =>
    intro b
    rw [List.cons_append, List.length_cons, nthB_cons_succ]
    exact ih b

/-- The block value `_addBlock` finalizes and appends when the ledger
satisfies the invariant: height and timestamp assigned, previous hash linked
to the latest block, hash computed last. -/
def finalizeBlock (bc : Blockchain) (blk : Block) (now : Int) : Block :=
  ({ blk with
    height := bc._height + 1
    time := now
    previousBlockHash := (nthB bc._chain (bc._chain.length - 1)).hash }).generateHash

/-- `_addBlock` on an invariant-satisfying ledger: appends exactly the
finalized block, bumps the height, reports no fault, and preserves the
invariant. -/
theorem addBlock_spec (bc : Blockchain) (blk : Block) (now : Int) (h : ChainInv bc) :
    bc._addBlock blk now =
      some ({ _chain := bc._chain ++ [finalizeBlock bc blk now],
              _height := bc._height + 1 },
            finalizeBlock bc blk now, []) ∧
    ChainInv { _chain := bc._chain ++ [finalizeBlock bc blk now],
               _height := bc._height + 1 } := by
  obtain ⟨hne, hht, hts, hhc, h0, hlink⟩ := h
  have hlen : 0 < bc._chain.length := List.length_pos.mpr hne
  have hinv1 : ChainInv { _chain := bc._chain ++ [finalizeBlock bc blk now],
                          _height := bc._height + 1 } := by
    refine ⟨by simp, ?_, ?_, ?_, ?_, ?_⟩
    · simp only [List.length_append, List.length_cons, List.length_nil]
      push_cast
      omega
    · intro i hi
      simp only [List.length_append, List.length_cons, List.length_nil] at hi
      by_cases hilt : i < bc._chain.length
      · rw [nthB_append_lt _ _ _ hilt]
        exact hts i hilt
      · have : i = bc._chain.length := by omega
        subst this
        rw [nthB_append_len]
        show ({ blk with
          height := bc._height + 1
          time := now
          previousBlockHash := (nthB bc._chain (bc._chain.length - 1)).hash } : Block).height =
            (bc._chain.length : Int)
        show bc._height + 1 = (bc._chain.length : Int)
        omega
    · intro i hi
      simp only [List.length_append, List.length_cons, List.length_nil] at hi
      by_cases hilt : i < bc._chain.length
      · rw [nthB_append_lt _ _ _ hilt]
        exact hhc i hilt
      · have : i = bc._chain.length := by omega
        subst this
        rw [nthB_append_len]
        exact hashCorrect_generateHash _
    · rw [nthB_append_lt _ _ _ (by omega)]
      exact h0
    · intro i hi
      simp only [List.length_append, List.length_cons, List.length_nil] at hi
      by_cases hilt : i + 1 < bc._chain.length
      · rw [nthB_append_lt _ _ _ hilt, nthB_append_lt _ _ _ (by omega)]
        exact hlink i (by omega)
      · have h1 : i + 1 = bc._chain.length := by omega
        have hieq : i = bc._chain.length - 1 := by omega
        show (nthB (bc._chain ++ [finalizeBlock bc blk now]) (i + 1)).previousBlockHash =
          (nthB (bc._chain ++ [finalizeBlock bc blk now]) i).hash
        rw [h1, nthB_append_len, hieq, nthB_append_lt _ _ _ (by omega)]
        rfl
  have hlat : bc.getLatestBlock = some (nthB bc._chain (bc._chain.length - 1)) := by
    rw [Blockchain.getLatestBlock, Blockchain.getBlockByHeight, findLatest bc hne hht hts]
    rfl
  constructor
  · have hstep : bc._addBlock blk now =
        (Blockchain.validateChain { _chain := bc._chain ++ [finalizeBlock bc blk now],
                                    _height := bc._height + 1 }).map
          (fun p => (p.1, finalizeBlock bc blk now, p.2)) := by
      rw [Blockchain._addBlock]
      simp only [hlat]
      rw [if_pos (by omega : bc._height > -1)]
      rfl
    rw [hstep, validateChain_of_inv _ hinv1]
    rfl
  · exact hinv1

/-- The genesis block as the constructor materializes it at time `now`. -/
def genesisBlock (now : Int) : Block :=
  ({ hash := none
     height := 0
     body := hexEncode (jsonStringify genesisData)
     time := now
     previousBlockHash := none } : Block).generateHash

theorem genesis_inv (now : Int) :
    ChainInv { _chain := [genesisBlock now], _height := 0 } := by
  refine ⟨by simp, by simp, ?_, ?_, rfl, ?_⟩
  · intro i hi
    simp only [List.length_cons, List.length_nil] at hi
    have : i = 0 := by omega
    subst this
    rfl
  · intro i hi
    simp only [List.length_cons, List.length_nil] at hi
    have : i = 0 := by omega
    subst this
    exact hashCorrect_generateHash _
  · intro i hi
    simp at hi

theorem new_spec (now : Int) :
    Blockchain.new now = some { _chain := [genesisBlock now], _height := 0 } := rfl

/-- Mutating one block's body leaves every stored hash field unchanged. -/
theorem nthB_set_hashEq (c : List Block) (k : Nat) (m : Block) (hm : m.hash = (nthB c k).hash) :
    ∀ j, j < c.length → (nthB (c.set k m) j).hash = (nthB c j).hash := by
  intro j hj
  by_cases hjk : j = k
  · subst hjk
    rw [nthB_set_eq c j m hj, hm]
  · rw [nthB_set_ne c k j m hjk]

/-- The backward walk over a chain whose block `k` (a non-genesis position)
has had its body replaced: every block above `k` validates, block `k` fails
validation — its hash is healed in place and one fault naming its recomputed
hash is recorded — and the walk then descends cleanly to the genesis. -/
theorem go_tamper (c : List Block) (k : Nat) (nb : String)
    (hts : ∀ j, j < c.length → (nthB c j).height = (j : Int))
    (hhc : ∀ j, j < c.length → hashCorrect (nthB c j))
    (h0 : (nthB c 0).previousBlockHash = none)
    (hlink : ∀ j, j < c.length - 1 →
      (nthB c (j + 1)).previousBlockHash = (nthB c j).hash)
    (hk1 : 1 ≤ k) (hk2 : k < c.length)
    (hnb : nb ≠ (nthB c k).body) :
    ∀ i, k ≤ i → i < c.length →
    ∀ fuel log, i + 1 ≤ fuel →
    validateChainGo fuel (c.set k { nthB c k with body := nb }) log
      (some (i, nthB (c.set k { nthB c k with body := nb }) i)) =
      some (c.set k ({ nthB c k with body := nb }).generateHash,
        log ++ ["Block " ++ SHA256 (blockSerialize { nthB c k with body := nb }) ++
          " is invalid!"]) := by
  have hinj := inv_hash_inj c hts hhc
  have hsome := stored_hash_some c hhc
  have hmhash : ({ nthB c k with body := nb } : Block).hash = (nthB c k).hash := rfl
  have hashEq := nthB_set_hashEq c k { nthB c k with body := nb } hmhash
  have hlen : (c.set k { nthB c k with body := nb }).length = c.length := by
    simp
  intro i
  induction i using Nat.strong_induction_on with
  | _ i ih =>
    intro hki hilen fuel log hfuel
    obtain ⟨f, rfl⟩ : ∃ f, fuel = f + 1 := ⟨fuel - 1, by omega⟩
    by_cases hik : i = k
    · subst hik
      rw [nthB_set_eq c i _ hilen]
      have hprev : ({ nthB c i with body := nb } : Block).previousBlockHash =
          (nthB c (i - 1)).hash := by
        show (nthB c i).previousBlockHash = (nthB c (i - 1)).hash
        have := hlink (i - 1) (by omega)
        rwa [show i - 1 + 1 = i by omega] at this
      obtain ⟨s, hs, hsne⟩ := hsome (i - 1) (by omega)
      have htr : optStrTruthy ({ nthB c i with body := nb } : Block).previousBlockHash =
          true := by
        rw [hprev, hs]
        simp [optStrTruthy, hsne]
      rw [validateChainGo_step f _ log i _ htr]
      rw [List.set_set]
      have hbad : (({ nthB c i with body := nb } : Block).hash ==
          ({ nthB c i with body := nb } : Block).generateHash.hash) = false := by
        apply beq_eq_false_iff_ne.mpr
        intro he
        rw [hmhash, hhc i hilen] at he
        have he2 : SHA256 (blockSerialize (nthB c i)) =
            SHA256 (blockSerialize { nthB c i with body := nb }) :=
          Option.some.inj he
        have hfields := blockSerialize_inj (SHA256_inj he2)
        have hbody : (nthB c i).body = nb := hfields.2.1
        exact hnb hbody.symm
      rw [if_neg (by simp [hbad])]
      -- the recorded message names the healed hash
      have hmsg : jsTemplateOptStr ({ nthB c i with body := nb } : Block).generateHash.hash =
          SHA256 (blockSerialize { nthB c i with body := nb }) := rfl
      rw [hmsg]
      -- move to block i - 1 and descend cleanly
      set c2 := c.set i ({ nthB c i with body := nb } : Block).generateHash with hc2
      have hlen2 : c2.length = c.length := by
        rw [hc2]
        simp
      have hts2 : ∀ j, j < c2.length → (nthB c2 j).height = (j : Int) := by
        intro j hj
        rw [hlen2] at hj
        by_cases hjk : j = i
        · subst hjk
          rw [hc2, nthB_set_eq c j _ (by omega)]
          exact hts j hj
        · rw [hc2, nthB_set_ne c i j _ hjk]
          exact hts j hj
      have hhc2 : ∀ j, j < c2.length → hashCorrect (nthB c2 j) := by
        intro j hj
        rw [hlen2] at hj
        by_cases hjk : j = i
        · subst hjk
          rw [hc2, nthB_set_eq c j _ (by omega)]
          exact hashCorrect_generateHash _
        · rw [hc2, nthB_set_ne c i j _ hjk]
          exact hhc j hj
      have hprev2 : ({ nthB c i with body := nb } : Block).generateHash.previousBlockHash =
          (nthB c (i - 1)).hash := hprev
      have hfind : findIdxBlock
          (fun x => x.hash ==
            ({ nthB c i with body := nb } : Block).generateHash.previousBlockHash) c2 =
          some (i - 1, nthB c2 (i - 1)) := by
        apply findIdxBlock_spec _ c2 (i - 1) (by omega)
        · intro j hj
          rw [hprev2]
          apply beq_eq_false_iff_ne.mpr
          intro he
          have hj2 : nthB c2 j = nthB c j := by
            rw [hc2, nthB_set_ne c i j _ (by omega)]
          rw [hj2] at he
          exact absurd (hinj j (i - 1) (by omega) (by omega) he) (by omega)
        · rw [hprev2]
          apply beq_iff_eq.mpr
          rw [hc2, nthB_set_ne c i (i - 1) _ (by omega)]
      rw [hfind]
      rw [go_clean c2 (i - 1) (by omega)
        (fun j h1 h2 => hhc2 j (by omega))
        (fun j hj => by
          rw [hc2, nthB_set_ne c i (j + 1) _ (by omega), nthB_set_ne c i j _ (by omega)]
          exact hlink j (by omega))
        (by rw [hc2, nthB_set_ne c i 0 _ (by omega)]; exact h0)
        (stored_hash_some c2 hhc2)
        (inv_hash_inj c2 hts2 hhc2)
        f _ (by omega)]
    · -- i > k: this block is untampered and validates cleanly
      have hik2 : k < i := by omega
      rw [nthB_set_ne c k i _ (by omega)]
      have hprev : (nthB c i).previousBlockHash = (nthB c (i - 1)).hash := by
        have := hlink (i - 1) (by omega)
        rwa [show i - 1 + 1 = i by omega] at this
      obtain ⟨s, hs, hsne⟩ := hsome (i - 1) (by omega)
      have htr : optStrTruthy (nthB c i).previousBlockHash = true := by
        rw [hprev, hs]
        simp [optStrTruthy, hsne]
      rw [validateChainGo_step f _ log i _ htr]
      rw [generateHash_of_correct (hhc i hilen)]
      have hset : (c.set k { nthB c k with body := nb }).set i (nthB c i) =
          c.set k { nthB c k with body := nb } := by
        have hx : nthB c i = nthB (c.set k { nthB c k with body := nb }) i :=
          (nthB_set_ne c k i _ (by omega)).symm
        rw [hx]
        apply set_nthB_self
        simp only [List.length_set]
        omega
      rw [hset]
      rw [if_pos (beq_self_eq_true _)]
      have hfind : findIdxBlock (fun x => x.hash == (nthB c i).previousBlockHash)
          (c.set k { nthB c k with body := nb }) =
          some (i - 1, nthB (c.set k { nthB c k with body := nb }) (i - 1)) := by
        apply findIdxBlock_spec _ _ (i - 1) (by omega)
        · intro j hj
          rw [hprev]
          apply beq_eq_false_iff_ne.mpr
          intro he
          rw [hashEq j (by omega)] at he
          exact absurd (hinj j (i - 1) (by omega) (by omega) he) (by omega)
        · rw [hprev]
          apply beq_iff_eq.mpr
          exact hashEq (i - 1) (by omega)
      rw [hfind]
      exact ih (i - 1) (by omega) (by omega) (by omega) f log (by omega)

/-- Mutating the body of block `k ≥ 1` of an invariant-satisfying ledger and
re-validating: the walk finds exactly one fault, naming the mutated block by
its recomputed hash, and heals that block's hash in place. -/
theorem validateChain_tamper (bc : Blockchain) (k : Nat) (nb : String)
    (h : ChainInv bc) (hk1 : 1 ≤ k) (hk2 : k < bc._chain.length)
    (hnb : nb ≠ (nthB bc._chain k).body) :
    Blockchain.validateChain
        { _chain := bc._chain.set k { nthB bc._chain k with body := nb },
          _height := bc._height } =
      some ({ _chain := bc._chain.set k ({ nthB bc._chain k with body := nb }).generateHash,
              _height := bc._height },
        ["Block " ++ SHA256 (blockSerialize { nthB bc._chain k with body := nb }) ++
          " is invalid!"]) := by
  obtain ⟨hne, hht, hts, hhc, h0, hlink⟩ := h
  have hlen : 0 < bc._chain.length := List.length_pos.mpr hne
  have hlen' : (bc._chain.set k { nthB bc._chain k with body := nb }).length =
      bc._chain.length := by simp
  have hts' : ∀ j, j < (bc._chain.set k { nthB bc._chain k with body := nb }).length →
      (nthB (bc._chain.set k { nthB bc._chain k with body := nb }) j).height = (j : Int) := by
    intro j hj
    rw [hlen'] at hj
    by_cases hjk : j = k
    · subst hjk
      rw [nthB_set_eq _ _ _ hj]
      exact hts _ hj
    · rw [nthB_set_ne _ _ _ _ hjk]
      exact hts j hj
  have hne2 : bc._chain.set k { nthB bc._chain k with body := nb } ≠ [] := by
    intro hx
    rw [hx] at hlen'
    simp at hlen'
    omega
  have hinit := findLatest
    { _chain := bc._chain.set k { nthB bc._chain k with body := nb }, _height := bc._height }
    hne2
    (by simp only [hlen']; exact hht)
    hts'
  rw [Blockchain.validateChain]
  simp only [hinit]
  simp only [hlen']
  rw [go_tamper bc._chain k nb hts hhc h0 hlink hk1 hk2 hnb
    (bc._chain.length - 1) (by omega) (by omega)
    (bc._chain.length + 1) [] (by omega)]
  rfl

/-- Mutating only the genesis body and re-validating: the walk stops before
ever validating the genesis, so it completes with an empty fault list and no
block is healed. -/
theorem validateChain_genesis_mutation (bc : Blockchain) (nb : String) (h : ChainInv bc) :
    Blockchain.validateChain
        { _chain := bc._chain.set 0 { nthB bc._chain 0 with body := nb },
          _height := bc._height } =
      some ({ _chain := bc._chain.set 0 { nthB bc._chain 0 with body := nb },
              _height := bc._height }, []) := by
  obtain ⟨hne, hht, hts, hhc, h0, hlink⟩ := h
  have hlen : 0 < bc._chain.length := List.length_pos.mpr hne
  have hmhash : ({ nthB bc._chain 0 with body := nb } : Block).hash =
      (nthB bc._chain 0).hash := rfl
  have hashEq := nthB_set_hashEq bc._chain 0 { nthB bc._chain 0 with body := nb } hmhash
  have hlen' : (bc._chain.set 0 { nthB bc._chain 0 with body := nb }).length =
      bc._chain.length := by simp
  have hts' : ∀ j, j < (bc._chain.set 0 { nthB bc._chain 0 with body := nb }).length →
      (nthB (bc._chain.set 0 { nthB bc._chain 0 with body := nb }) j).height = (j : Int) := by
    intro j hj
    rw [hlen'] at hj
    by_cases hjk : j = 0
    · subst hjk
      rw [nthB_set_eq _ _ _ hj]
      exact hts _ hj
    · rw [nthB_set_ne _ _ _ _ hjk]
      exact hts j hj
  have hinj := inv_hash_inj bc._chain hts hhc
  have hne2 : bc._chain.set 0 { nthB bc._chain 0 with body := nb } ≠ [] := by
    intro hx
    rw [hx] at hlen'
    simp at hlen'
    omega
  have hinit := findLatest
    { _chain := bc._chain.set 0 { nthB bc._chain 0 with body := nb }, _height := bc._height }
    hne2
    (by simp only [hlen']; exact hht)
    hts'
  rw [Blockchain.validateChain]
  simp only [hinit]
  simp only [hlen']
  rw [go_clean (bc._chain.set 0 { nthB bc._chain 0 with body := nb })
    (bc._chain.length - 1) (by simp only [hlen']; omega)
    (fun j h1 h2 => by
      rw [nthB_set_ne _ _ _ _ (by omega)]
      exact hhc j (by omega))
    (fun j hj => by
      by_cases hj0 : j = 0
      · subst hj0
        rw [nthB_set_ne _ _ _ _ (by omega), nthB_set_eq _ _ _ (by omega)]
        show (nthB bc._chain 1).previousBlockHash = (nthB bc._chain 0).hash
        exact hlink 0 (by omega)
      · rw [nthB_set_ne _ _ _ _ (by omega), nthB_set_ne _ _ _ _ hj0]
        exact hlink j (by omega))
    (by
      rw [nthB_set_eq _ _ _ (by omega)]
      exact h0)
    (fun j hj => by
      rw [hlen'] at hj
      rw [hashEq j hj]
      exact stored_hash_some bc._chain hhc j hj)
    (fun j1 j2 hj1 hj2 he => by
      rw [hlen'] at hj1 hj2
      rw [hashEq j1 hj1, hashEq j2 hj2] at he
      exact hinj j1 j2 hj1 hj2 he)
    (bc._chain.length + 1) [] (by omega)]
  rfl

/-- `submitStar` when the code's time gate rejects: the thrown error is the
expired-challenge error and the ledger value handed back is the unchanged
input state. -/
theorem submitStar_time_rejected (bc : Blockchain) (now : Int)
    (address message signature : String) (verify : String → String → String → Bool)
    (star : Json) (h : ValidTime now (newBlockMessage.parse message).time = false) :
    bc.submitStar now address message signature verify star =
      some (bc, Except.error BlockchainError.messageTooOld) := by
  rw [Blockchain.submitStar]
  simp [h]

/-- `submitStar` when the time gate passes but the signature fails: the
invalid-signature error, ledger unchanged. -/
theorem submitStar_sig_rejected (bc : Blockchain) (now : Int)
    (address message signature : String) (verify : String → String → String → Bool)
    (star : Json) (ht : ValidTime now (newBlockMessage.parse message).time = true)
    (hv : verify message address signature = false) :
    bc.submitStar now address message signature verify star =
      some (bc, Except.error BlockchainError.messageInvalid) := by
  rw [Blockchain.submitStar]
  simp [ht, hv]

/-- `submitStar` when both gates pass on an invariant-satisfying ledger:
exactly one block — the finalized `{owner, star}` block — is appended. -/
theorem submitStar_accepted (bc : Blockchain) (now : Int)
    (address message signature : String) (verify : String → String → String → Bool)
    (star : Json) (h : ChainInv bc)
    (ht : ValidTime now (newBlockMessage.parse message).time = true)
    (hv : verify message address signature = true) :
    bc.submitStar now address message signature verify star =
      some ({ _chain := bc._chain ++
                [finalizeBlock bc (Block.new (Json.obj (JsonFields.cons "owner"
                  (Json.str address) (JsonFields.cons "star" star JsonFields.nil)))) now],
              _height := bc._height + 1 },
        Except.ok (finalizeBlock bc (Block.new (Json.obj (JsonFields.cons "owner"
          (Json.str address) (JsonFields.cons "star" star JsonFields.nil)))) now)) := by
  rw [Blockchain.submitStar]
  simp only [ht, hv, Bool.not_true, Bool.false_eq_true, if_false]
  rw [(addBlock_spec bc _ now h).1]
  rfl

/-! ## The claims -/

/-- C1: the design requires `submitStar` to accept a challenge at most 300
seconds old and to reject an older one with the expired-challenge error
before the signature check. The code's `ValidTime` comparison is inverted
(`now - t > 300` guards acceptance), so the gate does the opposite:
evaluated at concrete inputs, a fresh challenge (0 s old) and a challenge
exactly 300 s old are both rejected as "Message is too old!" — before the
signature is ever checked (the verifier here rejects everything, yet the
time error is raised) — while a 301-second-old challenge sails through the
time gate and reaches the signature check. The last conjunct exhibits the
inverted comparator itself at the boundary. -/
theorem submitStar_time_gate_inverted :
    (Blockchain.submitStar { _chain := [], _height := -1 } 1000 "addr"
        "addr:1000:starRegistry" "sig" (fun _ _ _ => false) Json.null =
      some ({ _chain := [], _height := -1 },
        Except.error BlockchainError.messageTooOld)) ∧
    (Blockchain.submitStar { _chain := [], _height := -1 } 1000 "addr"
        "addr:700:starRegistry" "sig" (fun _ _ _ => true) Json.null =
      some ({ _chain := [], _height := -1 },
        Except.error BlockchainError.messageTooOld)) ∧
    (Blockchain.submitStar { _chain := [], _height := -1 } 1000 "addr"
        "addr:699:starRegistry" "sig" (fun _ _ _ => false) Json.null =
      some ({ _chain := [], _height := -1 },
        Except.error BlockchainError.messageInvalid)) ∧
    ValidTime 1000 (some 700) = false ∧ ValidTime 1000 (some 699) = true :=
  ⟨rfl, rfl, rfl, rfl, rfl⟩

/-- A two-block ledger whose latest block's `previousBlockHash` dangles: it
names no stored hash. Both blocks are individually hash-correct. -/
def danglingParent : Block :=
  ({ hash := none, height := 0, body := "aa", time := 5,
     previousBlockHash := none } : Block).generateHash

def danglingChild : Block :=
  ({ hash := none, height := 1, body := "bb", time := 6,
     previousBlockHash := some "nohash" } : Block).generateHash

def danglingLedger : Blockchain :=
  { _chain := [danglingParent, danglingChild], _height := 1 }

/-- C2 counterexample: on a concrete ledger whose latest block carries a
non-null `previousBlockHash` matching no stored block, `validateChain`
finishes with an EMPTY fault list — the failed lookup ends the walk without
recording any broken-chain fault, refuting the claim as stated. -/
theorem validateChain_dangling_link_unreported :
    optStrTruthy danglingChild.previousBlockHash = true ∧
    danglingLedger.getBlockByHash danglingChild.previousBlockHash = none ∧
    danglingLedger.validateChain = some (danglingLedger, []) :=
  ⟨rfl, rfl, rfl⟩

/-- C2 (amended): when the backward walk looks up a truthy
`previousBlockHash` and `getBlockByHash` finds no block, the walk simply
terminates: the final fault list is the log accumulated so far plus at most
the current block's own validity fault — no broken-chain fault is ever
recorded for the failed lookup. -/
theorem validateChainGo_missing_lookup_silent (fuel : Nat) (c : List Block)
    (log : List String) (i : Nat) (b : Block)
    (htr : optStrTruthy b.previousBlockHash = true)
    (hfind : findIdxBlock (fun x => x.hash == b.generateHash.previousBlockHash)
      (c.set i b.generateHash) = none) :
    validateChainGo (fuel + 1) c log (some (i, b)) =
      some (c.set i b.generateHash,
        if b.hash == b.generateHash.hash then log
        else log ++ ["Block " ++ jsTemplateOptStr b.generateHash.hash ++ " is invalid!"]) := by
  rw [validateChainGo_step fuel c log i b htr, hfind, validateChainGo_none]

/-- C2 witness: the amended statement at the concrete dangling ledger. -/
theorem validateChainGo_missing_lookup_silent_witness :
    validateChainGo 3 [danglingParent, danglingChild] [] (some (1, danglingChild)) =
      some ([danglingParent, danglingChild].set 1 danglingChild.generateHash,
        if danglingChild.hash == danglingChild.generateHash.hash then ([] : List String)
        else [] ++ ["Block " ++ jsTemplateOptStr danglingChild.generateHash.hash ++
          " is invalid!"]) :=
  validateChainGo_missing_lookup_silent 2 [danglingParent, danglingChild] [] 1
    danglingChild rfl rfl

/-- A concrete, hand-laid valid 3-block ledger for instantiating theorems. -/
def chainBlockA : Block :=
  ({ hash := none, height := 0, body := "aa", time := 1,
     previousBlockHash := none } : Block).generateHash

def chainBlockB : Block :=
  ({ hash := none, height := 1, body := "bb", time := 2,
     previousBlockHash := chainBlockA.hash } : Block).generateHash

def chainBlockC : Block :=
  ({ hash := none, height := 2, body := "cc", time := 3,
     previousBlockHash := chainBlockB.hash } : Block).generateHash

def demoLedger : Blockchain :=
  { _chain := [chainBlockA, chainBlockB, chainBlockC], _height := 2 }

theorem demoLedger_inv : ChainInv demoLedger := by
  refine ⟨by simp [demoLedger], by decide, ?_, ?_, rfl, ?_⟩
  · intro i hi
    simp only [demoLedger, List.length_cons, List.length_nil] at hi
    interval_cases i <;> rfl
  · intro i hi
    simp only [demoLedger, List.length_cons, List.length_nil] at hi
    interval_cases i
    · exact hashCorrect_generateHash _
    · exact hashCorrect_generateHash _
    · exact hashCorrect_generateHash _
  · intro i hi
    simp only [demoLedger, List.length_cons, List.length_nil] at hi
    interval_cases i <;> rfl

/-- C3: tamper detection. For every invariant-satisfying ledger of at least
three blocks, replacing the body of a non-genesis, non-latest block `k` by
different content and calling `validateChain` yields the fault list
`["Block <recomputed hash of block k> is invalid!"]` — non-empty, naming the
mutated block, and returned as the complete ordered list (here exactly one
fault); the mutated block's hash is healed in place as `validate()`
recomputes it. -/
theorem validateChain_detects_tampered_block (bc : Blockchain) (k : Nat) (nb : String)
    (h : ChainInv bc) (h3 : 3 ≤ bc._chain.length) (hk1 : 1 ≤ k)
    (hk2 : k + 1 < bc._chain.length) (hnb : nb ≠ (nthB bc._chain k).body) :
    Blockchain.validateChain
        { _chain := bc._chain.set k { nthB bc._chain k with body := nb },
          _height := bc._height } =
      some ({ _chain := bc._chain.set k
                ({ nthB bc._chain k with body := nb }).generateHash,
              _height := bc._height },
        ["Block " ++ SHA256 (blockSerialize { nthB bc._chain k with body := nb }) ++
          " is invalid!"]) ∧
    (["Block " ++ SHA256 (blockSerialize { nthB bc._chain k with body := nb }) ++
      " is invalid!"] : List String) ≠ [] :=
  ⟨validateChain_tamper bc k nb h hk1 (by omega) hnb, by simp⟩

/-- C3 witness: the theorem applied to the concrete 3-block ledger, mutating
block 1's body. -/
theorem validateChain_detects_tampered_block_witness :
    Blockchain.validateChain
        { _chain := demoLedger._chain.set 1 { nthB demoLedger._chain 1 with body := "zz" },
          _height := demoLedger._height } =
      some ({ _chain := demoLedger._chain.set 1
                ({ nthB demoLedger._chain 1 with body := "zz" }).generateHash,
              _height := demoLedger._height },
        ["Block " ++ SHA256 (blockSerialize { nthB demoLedger._chain 1 with body := "zz" }) ++
          " is invalid!"]) ∧
    (["Block " ++ SHA256 (blockSerialize { nthB demoLedger._chain 1 with body := "zz" }) ++
      " is invalid!"] : List String) ≠ [] :=
  validateChain_detects_tampered_block demoLedger 1 "zz" demoLedger_inv (by decide)
    (by decide) (by decide) (by decide)

/-- The spec's linkage invariant by itself: positional heights, each
non-genesis block linked to its predecessor's hash at append time, ledger
height = chain size - 1. -/
def LinkageInv (bc : Blockchain) : Prop :=
  (∀ i, i < bc._chain.length → (nthB bc._chain i).height = (i : Int)) ∧
  (∀ i, i < bc._chain.length - 1 →
    (nthB bc._chain (i + 1)).previousBlockHash = (nthB bc._chain i).hash) ∧
  bc._height = (bc._chain.length : Int) - 1

theorem linkage_of_chainInv {bc : Blockchain} (h : ChainInv bc) : LinkageInv bc :=
  ⟨h.2.2.1, h.2.2.2.2.2, h.2.1⟩

/-- C4: the linkage invariant holds after construction and is preserved by
every successful append. A fresh ledger satisfies it; `_addBlock` on an
invariant-satisfying ledger yields a ledger satisfying it (and the full
reachable-state invariant, closing the induction); a `submitStar` call that
returns a block does too. -/
theorem append_preserves_linkage :
    (∀ (now : Int) (bc0 : Blockchain), Blockchain.new now = some bc0 →
      LinkageInv bc0 ∧ ChainInv bc0) ∧
    (∀ (bc : Blockchain) (blk : Block) (now : Int) (bc1 : Blockchain) (nb : Block)
      (log : List String), ChainInv bc → bc._addBlock blk now = some (bc1, nb, log) →
      LinkageInv bc1 ∧ ChainInv bc1) ∧
    (∀ (bc : Blockchain) (now : Int) (address message signature : String)
      (verify : String → String → String → Bool) (star : Json) (bc1 : Blockchain)
      (nb : Block), ChainInv bc →
      bc.submitStar now address message signature verify star = some (bc1, Except.ok nb) →
      LinkageInv bc1 ∧ ChainInv bc1) := by
  refine ⟨?_, ?_, ?_⟩
  · intro now bc0 h
    rw [new_spec now] at h
    have he := Option.some.inj h
    rw [← he]
    exact ⟨linkage_of_chainInv (genesis_inv now), genesis_inv now⟩
  · intro bc blk now bc1 nb log hinv hadd
    have hs := addBlock_spec bc blk now hinv
    rw [hs.1] at hadd
    injection hadd with hp
    injection hp with h1 hp2
    rw [← h1]
    exact ⟨linkage_of_chainInv hs.2, hs.2⟩
  · intro bc now address message signature verify star bc1 nb hinv hsub
    cases hvt : ValidTime now (newBlockMessage.parse message).time with
    | false =>
      rw [submitStar_time_rejected bc now address message signature verify star hvt] at hsub
      have h2 := congrArg Prod.snd (Option.some.inj hsub)
      exact nomatch h2
    | true =>
      cases hv : verify message address signature with
      | false =>
        rw [submitStar_sig_rejected bc now address message signature verify star hvt hv] at hsub
        have h2 := congrArg Prod.snd (Option.some.inj hsub)
        exact nomatch h2
      | true =>
        rw [submitStar_accepted bc now address message signature verify star hinv hvt hv] at hsub
        injection hsub with hp
        injection hp with h1 hp2
        rw [← h1]
        have hs := (addBlock_spec bc (Block.new (Json.obj (JsonFields.cons "owner"
          (Json.str address) (JsonFields.cons "star" star JsonFields.nil)))) now hinv).2
        exact ⟨linkage_of_chainInv hs, hs⟩

/-- The one-block ledger at time 0 and the ledger obtained from it by one
append at time 7, for instantiating the preservation theorem. -/
def ledger0 : Blockchain := { _chain := [genesisBlock 0], _height := 0 }

def ledger1 : Blockchain :=
  { _chain := ledger0._chain ++ [finalizeBlock ledger0 blk0 7], _height := ledger0._height + 1 }

/-- C4 witness: the construction clause at time 0, and the append clause on
the resulting one-block ledger. -/
theorem append_preserves_linkage_witness :
    (LinkageInv ledger0 ∧ ChainInv ledger0) ∧ (LinkageInv ledger1 ∧ ChainInv ledger1) :=
  ⟨append_preserves_linkage.1 0 ledger0 rfl,
   append_preserves_linkage.2.1 ledger0 blk0 7 ledger1 (finalizeBlock ledger0 blk0 7) []
     (genesis_inv 0) (addBlock_spec ledger0 blk0 7 (genesis_inv 0)).1⟩

/-- C5: a freshly constructed ledger has height 0, exactly one block, that
block's `previousBlockHash` is `null`; and `getBData` on any block of height
0 returns `null` regardless of the stored body. -/
theorem genesis_block_properties :
    (∀ now : Int,
      Blockchain.new now = some { _chain := [genesisBlock now], _height := 0 } ∧
      ({ _chain := [genesisBlock now], _height := 0 } : Blockchain)._height = 0 ∧
      ({ _chain := [genesisBlock now], _height := 0 } : Blockchain)._chain.length = 1 ∧
      (genesisBlock now).previousBlockHash = none) ∧
    (∀ b : Block, b.height = 0 → b.getBData = none) := by
  constructor
  · intro now
    exact ⟨new_spec now, rfl, rfl, rfl⟩
  · intro b hb
    rw [Block.getBData, if_pos hb]

/-- C5 witness: the genesis clause at time 3, and the decode clause on that
genesis block (whose body is the encoded genesis payload, not empty). -/
theorem genesis_block_properties_witness :
    Blockchain.new 3 = some { _chain := [genesisBlock 3], _height := 0 } ∧
    (genesisBlock 3).getBData = none :=
  ⟨(genesis_block_properties.1 3).1,
   genesis_block_properties.2 (genesisBlock 3) rfl⟩

/-- C6: `submitStar` is atomic. A time-gate rejection and a signature-gate
rejection each hand back the ledger completely unchanged (same chain, same
height) with the corresponding error and no block constructed; a pass
through both gates appends exactly one block — the finalized `{owner, star}`
block — and bumps the height by one. -/
theorem submitStar_atomic :
    (∀ (bc : Blockchain) (now : Int) (address message signature : String)
      (verify : String → String → String → Bool) (star : Json),
      ValidTime now (newBlockMessage.parse message).time = false →
      bc.submitStar now address message signature verify star =
        some (bc, Except.error BlockchainError.messageTooOld)) ∧
    (∀ (bc : Blockchain) (now : Int) (address message signature : String)
      (verify : String → String → String → Bool) (star : Json),
      ValidTime now (newBlockMessage.parse message).time = true →
      verify message address signature = false →
      bc.submitStar now address message signature verify star =
        some (bc, Except.error BlockchainError.messageInvalid)) ∧
    (∀ (bc : Blockchain) (now : Int) (address message signature : String)
      (verify : String → String → String → Bool) (star : Json), ChainInv bc →
      ValidTime now (newBlockMessage.parse message).time = true →
      verify message address signature = true →
      ∃ nb, bc.submitStar now address message signature verify star =
        some ({ _chain := bc._chain ++ [nb], _height := bc._height + 1 }, Except.ok nb)) :=
  ⟨fun bc now a m s v st h => submitStar_time_rejected bc now a m s v st h,
   fun bc now a m s v st ht hv => submitStar_sig_rejected bc now a m s v st ht hv,
   fun bc now a m s v st hinv ht hv =>
     ⟨finalizeBlock bc (Block.new (Json.obj (JsonFields.cons "owner" (Json.str a)
        (JsonFields.cons "star" st JsonFields.nil)))) now,
      submitStar_accepted bc now a m s v st hinv ht hv⟩⟩

/-- C6 witness: on a one-block ledger, a fresh challenge is rejected by the
(inverted) time gate with no change; a stale challenge with a failing
verifier is rejected by the signature gate with no change; a stale challenge
with a passing verifier appends exactly one block. -/
theorem submitStar_atomic_witness :
    (Blockchain.submitStar ledger0 1000 "a" "a:1000:x" "s" (fun _ _ _ => true) Json.null =
      some (ledger0, Except.error BlockchainError.messageTooOld)) ∧
    (Blockchain.submitStar ledger0 1000 "a" "a:600:x" "s" (fun _ _ _ => false) Json.null =
      some (ledger0, Except.error BlockchainError.messageInvalid)) ∧
    (∃ nb, Blockchain.submitStar ledger0 1000 "a" "a:600:x" "s" (fun _ _ _ => true) Json.null =
      some ({ _chain := ledger0._chain ++ [nb], _height := ledger0._height + 1 },
        Except.ok nb)) :=
  ⟨submitStar_atomic.1 ledger0 1000 "a" "a:1000:x" "s" (fun _ _ _ => true) Json.null rfl,
   submitStar_atomic.2.1 ledger0 1000 "a" "a:600:x" "s" (fun _ _ _ => false) Json.null rfl rfl,
   submitStar_atomic.2.2 ledger0 1000 "a" "a:600:x" "s" (fun _ _ _ => true) Json.null
     (genesis_inv 0) rfl rfl⟩

/-- C7: `generateHash` assigns to `hash` the digest of the canonical
serialization `{height, body, time, previousBlockHash}` in that fixed order;
the serialization ignores the stored `hash`; blocks agreeing on the four
serialized fields get the same hash; the serialization determines exactly
those four fields (injectivity); and recomputation is idempotent. -/
theorem generateHash_canonical :
    (∀ b : Block, b.generateHash.hash =
      some (SHA256 (jsonStringify (Json.obj (JsonFields.cons "height" (Json.num b.height)
        (JsonFields.cons "body" (Json.str b.body)
          (JsonFields.cons "time" (Json.num b.time)
            (JsonFields.cons "previousBlockHash" (jsonOfOptStr b.previousBlockHash)
              JsonFields.nil)))))))) ∧
    (∀ (b : Block) (h : Option String),
      blockSerialize { b with hash := h } = blockSerialize b) ∧
    (∀ b b' : Block, b.height = b'.height → b.body = b'.body → b.time = b'.time →
      b.previousBlockHash = b'.previousBlockHash →
      b.generateHash.hash = b'.generateHash.hash) ∧
    (∀ b b' : Block, blockSerialize b = blockSerialize b' →
      b.height = b'.height ∧ b.body = b'.body ∧ b.time = b'.time ∧
      b.previousBlockHash = b'.previousBlockHash) ∧
    (∀ b : Block, b.generateHash.generateHash = b.generateHash) := by
  refine ⟨fun b => rfl, fun b h => rfl, ?_, fun b b' h => blockSerialize_inj h,
    fun b => generateHash_of_correct (hashCorrect_generateHash b)⟩
  intro b b' h1 h2 h3 h4
  show some (SHA256 (blockSerialize b)) = some (SHA256 (blockSerialize b'))
  rw [show blockSerialize b = blockSerialize b' from by
    rw [blockSerialize, blockSerialize, h1, h2, h3, h4]]

/-- C7 witness: the determinism clause on two blocks differing only in their
stored hash, and the injectivity clause on two identical serializations. -/
theorem generateHash_canonical_witness :
    (({ hash := none, height := 4, body := "bd", time := 9,
          previousBlockHash := some "p" } : Block).generateHash.hash =
      ({ hash := some "old", height := 4, body := "bd", time := 9,
          previousBlockHash := some "p" } : Block).generateHash.hash) ∧
    ((4 : Int) = 4 ∧ "bd" = "bd" ∧ (9 : Int) = 9 ∧
      (some "p" : Option String) = some "p") :=
  ⟨generateHash_canonical.2.2.1 _ _ rfl rfl rfl rfl,
   generateHash_canonical.2.2.2.1
     { hash := none, height := 4, body := "bd", time := 9, previousBlockHash := some "p" }
     { hash := some "old", height := 4, body := "bd", time := 9, previousBlockHash := some "p" }
     rfl⟩

/-- C8: the body round-trip. Constructing a block over any structured
payload (nested values included) and decoding it back at a non-zero height
recovers exactly the payload: `decode(encode(x)) = x`. -/
theorem getBData_roundtrip (x : Json) (ht : Int) (h : ht ≠ 0) :
    Block.getBData { Block.new x with height := ht } = some x := by
  rw [Block.getBData, if_neg h]
  show jsonParse (hex2ascii (hexEncode (jsonStringify x))) = some x
  rw [hex2ascii_hexEncode, jsonParse_stringify]

/-- A nested payload — an object holding a string with a quote and a
backslash, an array mixing numbers, null, booleans and a nested object —
for exercising the round-trip concretely. -/
def nestedPayload : Json :=
  Json.obj (JsonFields.cons "owner" (Json.str "a\"b\\c")
    (JsonFields.cons "star" (Json.arr (JsonList.cons (Json.num (-3))
      (JsonList.cons Json.null (JsonList.cons (Json.bool true)
        (JsonList.cons (Json.obj (JsonFields.cons "dec" (Json.str "68° 52.9")
          JsonFields.nil)) JsonList.nil)))))
      JsonFields.nil))

/-- C8 witness: the round-trip at the nested payload and height 1. -/
theorem getBData_roundtrip_witness :
    Block.getBData { Block.new nestedPayload with height := 1 } = some nestedPayload :=
  getBData_roundtrip nestedPayload 1 (by decide)

/-- C9: the backward walk never validates the genesis block. Mutating only
the genesis body of any invariant-satisfying ledger and re-validating
completes with an empty fault list, and the chain comes back exactly as
mutated — no block healed, so `validate()` was never applied to the
genesis. -/
theorem genesis_mutation_undetected (bc : Blockchain) (nb : String) (h : ChainInv bc) :
    Blockchain.validateChain
        { _chain := bc._chain.set 0 { nthB bc._chain 0 with body := nb },
          _height := bc._height } =
      some ({ _chain := bc._chain.set 0 { nthB bc._chain 0 with body := nb },
              _height := bc._height }, []) :=
  validateChain_genesis_mutation bc nb h

/-- C9 witness: mutating the genesis body of the concrete 3-block ledger. -/
theorem genesis_mutation_undetected_witness :
    Blockchain.validateChain
        { _chain := demoLedger._chain.set 0 { nthB demoLedger._chain 0 with body := "qq" },
          _height := demoLedger._height } =
      some ({ _chain := demoLedger._chain.set 0 { nthB demoLedger._chain 0 with body := "qq" },
              _height := demoLedger._height }, []) :=
  genesis_mutation_undetected demoLedger "qq" demoLedger_inv

/-! ## C10: stored hashes are never null -/

/-- Every block stored in the chain carries a non-null hash. -/
def AllHashSome (bc : Blockchain) : Prop := ∀ b, b ∈ bc._chain → b.hash ≠ none

theorem allHashSome_of_inv {bc : Blockchain} (h : ChainInv bc) : AllHashSome bc := by
  intro b hb
  obtain ⟨i, hi⟩ := List.mem_iff_get?.mp hb
  have hilt : i < bc._chain.length := by
    by_contra hx
    rw [List.get?_eq_none.mpr (by omega)] at hi
    cases hi
  rw [getq_nthB _ _ hilt] at hi
  have hb' := Option.some.inj hi
  rw [← hb']
  obtain ⟨s, hs, _⟩ := stored_hash_some bc._chain h.2.2.2.1 i hilt
  rw [hs]
  intro hx
  cases hx

theorem getBlockByHash_absent (bc : Blockchain) (h : Option String)
    (ha : ∀ b, b ∈ bc._chain → b.hash ≠ h) : bc.getBlockByHash h = none := by
  rw [Blockchain.getBlockByHash, findIdxBlock_none]
  · rfl
  · intro b hb
    have hne := ha b hb
    cases hx : b.hash == h with
    | false => rfl
    | true => exact absurd (by exact beq_iff_eq.mp hx) hne

/-- C10: every stored block's hash is non-null — true of every
invariant-satisfying ledger, of a freshly constructed ledger, and preserved
by `_addBlock` (the hash is computed before the push) — and consequently
`getBlockByHash(null)`, and `getBlockByHash` at any hash no stored block
carries, return the not-found result. -/
theorem stored_hash_nonnull :
    (∀ bc : Blockchain, ChainInv bc → AllHashSome bc) ∧
    (∀ (now : Int) (bc0 : Blockchain), Blockchain.new now = some bc0 → AllHashSome bc0) ∧
    (∀ (bc : Blockchain) (blk : Block) (now : Int) (bc1 : Blockchain) (nb : Block)
      (log : List String), ChainInv bc → bc._addBlock blk now = some (bc1, nb, log) →
      AllHashSome bc1) ∧
    (∀ bc : Blockchain, AllHashSome bc → bc.getBlockByHash none = none) ∧
    (∀ (bc : Blockchain) (h : Option String), (∀ b, b ∈ bc._chain → b.hash ≠ h) →
      bc.getBlockByHash h = none) := by
  refine ⟨fun bc h => allHashSome_of_inv h, ?_, ?_,
    fun bc ha => getBlockByHash_absent bc none ha,
    fun bc h ha => getBlockByHash_absent bc h ha⟩
  · intro now bc0 h
    rw [new_spec now] at h
    have he := Option.some.inj h
    rw [← he]
    exact allHashSome_of_inv (genesis_inv now)
  · intro bc blk now bc1 nb log hinv hadd
    have hs := addBlock_spec bc blk now hinv
    rw [hs.1] at hadd
    injection hadd with hp
    injection hp with h1 hp2
    rw [← h1]
    exact allHashSome_of_inv hs.2

/-- C10 witness: on the concrete 3-block ledger every stored hash is
non-null, and both a `null` lookup and a lookup at an uncarried hash come
back empty. -/
theorem stored_hash_nonnull_witness :
    AllHashSome demoLedger ∧
    demoLedger.getBlockByHash none = none ∧
    demoLedger.getBlockByHash (some "nosuch") = none :=
  ⟨stored_hash_nonnull.1 demoLedger demoLedger_inv,
   stored_hash_nonnull.2.2.2.1 demoLedger
     (stored_hash_nonnull.1 demoLedger demoLedger_inv),
   stored_hash_nonnull.2.2.2.2 demoLedger (some "nosuch") (by decide)⟩
